import Mathlib

/-!
# vsock-server: the relay loop of `src/guest/rootfs/vsock-server.c`

A shallow embedding of `set_non_blocking`, `transfer_data` and the `for (;;)`
loop of `main`.  The operating system is an arbitrary deterministic state
machine `OS σ` answering the three system calls the relay makes (`read`,
`write`, `select`); every function of the program threads the state of that
machine and records the calls it makes, in order, in a trace of `Event`s.
The loops take a step budget; a run whose budget is exhausted has
`result = none` and keeps the trace produced so far.
-/

namespace VsockServer

/-! ## System interface -/

/-- One `char` of the transfer buffer. -/
abbrev Byte := Nat

/-- Value of `EINTR` in `<errno.h>` (Linux). -/
def EINTR : Nat := 4

/-- Value of `EAGAIN` in `<errno.h>` (Linux). -/
def EAGAIN : Nat := 11

/-- Value of `STDIN_FILENO` in `<unistd.h>`. -/
def STDIN_FILENO : Int := 0

/-- Value of `STDOUT_FILENO` in `<unistd.h>`. -/
def STDOUT_FILENO : Int := 1

/-- Capacity of the stack buffer, `sizeof(buf)` for `char buf[4096]`. -/
def BUF_SIZE : Nat := 4096

/-- Outcome of `read(fd, buf, count)`: either the bytes the kernel stored at the
start of the buffer (none of them: end of stream), or a failure with the
`errno` it left. -/
inductive ReadResult where
  | data (bytes : List Byte)
  | fail (errno : Nat)
deriving DecidableEq, Repr

/-- Return value of the `read` call: the number of bytes stored, `-1` on failure. -/
def ReadResult.ret : ReadResult → Int
  | .data bytes => (bytes.length : Int)
  | .fail _ => -1

/-- Contents of the filled part of the buffer after the `read` call. -/
def ReadResult.bytes : ReadResult → List Byte
  | .data bytes => bytes
  | .fail _ => []

/-- Outcome of `write(fd, p, count)`: the raw return value and `errno` after the call. -/
structure WriteResult where
  ret : Int
  errno : Nat
deriving DecidableEq, Repr

/-- Arguments of `select(nfds, readfds, writefds, exceptfds, timeout)`; `none`
stands for a `NULL` pointer, a descriptor set is the list of its members. -/
structure SelectArgs where
  nfds : Int
  readfds : Option (List Int)
  writefds : Option (List Int)
  exceptfds : Option (List Int)
  timeout : Option Nat
deriving DecidableEq, Repr

/-- Outcome of `select`: return value, `errno`, and the members left in the
read and write sets on return. -/
structure SelectResult where
  ret : Int
  errno : Nat
  readfds : List Int
  writefds : List Int
deriving DecidableEq, Repr

/-- The operating system as seen by the relay: a deterministic machine with
state `σ` that answers each system call and moves to a next state.  `write`
receives the bytes found at the pointer it is given and the requested count. -/
structure OS (σ : Type) where
  read : σ → Int → Nat → ReadResult × σ
  write : σ → Int → List Byte → Int → WriteResult × σ
  select : σ → SelectArgs → SelectResult × σ

/-- One observable action of the program.  A `write` event records the offset
of `send_ptr` in `buf`, the count requested (`remaining`) and the bytes at the
pointer. -/
inductive Event where
  | read (fd : Int) (count : Nat) (res : ReadResult)
  | write (fd : Int) (off : Int) (count : Int) (bytes : List Byte) (res : WriteResult)
  | select (args : SelectArgs) (res : SelectResult)
  | perror (msg : String)
deriving DecidableEq, Repr

/-- A (possibly unfinished) run: the events in call order, the state the
operating system is left in, and the value returned (`none`: the step budget
ran out before the function returned). -/
structure Run (σ : Type) (α : Type) where
  trace : List Event
  state : σ
  result : Option α

/-! ## `transfer_data` (lines 49–94) -/

/-- The `count` bytes of `buf` starting at offset `off`. -/
def slice (buf : List Byte) (off count : Int) : List Byte :=
  (buf.drop off.toNat).take count.toNat

/-- Lines 63–67: the value of `nbytes` after the two tests on the result of
`write`, or `none` when line 66 returns `-1`. -/
def write_nbytes (w : WriteResult) : Option Int :=
  if w.ret < 0 ∧ w.errno = EAGAIN then some 0
  else if w.ret ≤ 0 then none
  else some w.ret

/-- How the inner `for (;;)` of lines 71–87 is left. -/
inductive WaitExit where
  | writable
  | failed
deriving DecidableEq, Repr

/-- The `select` call of line 75: write set `{out_fd}`, no read set, no timeout. -/
def writable_args (out_fd : Int) : SelectArgs :=
  { nfds := out_fd + 1, readfds := none, writefds := some [out_fd],
    exceptfds := none, timeout := none }

/-- Lines 71–87: wait for `out_fd` to become writable.  `writable` is the
`break` of line 85, `failed` the `return -1` of line 80. -/
def wait_writable {σ : Type} (os : OS σ) (out_fd : Int) : Nat → σ → Run σ WaitExit
  | 0, s => ⟨[], s, none⟩
  | fuel + 1, s =>
    let r := os.select s (writable_args out_fd)
    let ev := Event.select (writable_args out_fd) r.1
    if r.1.ret < 0 then
      if r.1.errno = EINTR then
        let k := wait_writable os out_fd fuel r.2
        ⟨ev :: k.trace, k.state, k.result⟩
      else
        ⟨[ev, Event.perror "select"], r.2, some WaitExit.failed⟩
    else if out_fd ∈ r.1.writefds then
      ⟨[ev], r.2, some WaitExit.writable⟩
    else
      let k := wait_writable os out_fd fuel r.2
      ⟨ev :: k.trace, k.state, k.result⟩

/-- Lines 61–93: the `while (remaining > 0)` loop, entered with `send_ptr` at
offset `send_ptr` of `buf`. -/
def write_loop {σ : Type} (os : OS σ) (out_fd : Int) (buf : List Byte) :
    Nat → σ → Int → Int → Run σ Int
  | 0, s, _, remaining =>
    if remaining > 0 then ⟨[], s, none⟩ else ⟨[], s, some 0⟩
  | fuel + 1, s, send_ptr, remaining =>
    if remaining > 0 then
      let w := os.write s out_fd (slice buf send_ptr remaining) remaining
      let ev := Event.write out_fd send_ptr remaining (slice buf send_ptr remaining) w.1
      match write_nbytes w.1 with
      | none => ⟨[ev], w.2, some (-1)⟩
      | some nbytes =>
        let wt : Run σ WaitExit :=
          if remaining > nbytes then wait_writable os out_fd fuel w.2
          else ⟨[], w.2, some WaitExit.writable⟩
        match wt.result with
        | none => ⟨ev :: wt.trace, wt.state, none⟩
        | some WaitExit.failed => ⟨ev :: wt.trace, wt.state, some (-1)⟩
        | some WaitExit.writable =>
          let k := write_loop os out_fd buf fuel wt.state (send_ptr + nbytes) (remaining - nbytes)
          ⟨ev :: (wt.trace ++ k.trace), k.state, k.result⟩
    else ⟨[], s, some 0⟩

/-- Lines 49–94. The buffer holds the bytes stored by the `read` of line 55. -/
def transfer_data {σ : Type} (os : OS σ) (fuel : Nat) (s : σ) (in_fd out_fd : Int) :
    Run σ Int :=
  let r := os.read s in_fd BUF_SIZE
  let ev := Event.read in_fd BUF_SIZE r.1
  if r.1.ret ≤ 0 then ⟨[ev], r.2, some (-1)⟩
  else
    let k := write_loop os out_fd r.1.bytes fuel r.2 0 r.1.ret
    ⟨ev :: k.trace, k.state, k.result⟩

/-! ## The session loop of `main` (lines 164–189) -/

/-- The `select` call of line 169: read set `{STDIN_FILENO, client_fd}`,
`nfds = client_fd + 1`, no timeout. -/
def readable_args (client_fd : Int) : SelectArgs :=
  { nfds := client_fd + 1, readfds := some [STDIN_FILENO, client_fd], writefds := none,
    exceptfds := none, timeout := none }

/-- Lines 164–189; the result is the value `main` returns, the exit code. -/
def session_loop {σ : Type} (os : OS σ) (echo : Bool) (client_fd : Int) :
    Nat → σ → Run σ Int
  | 0, s => ⟨[], s, none⟩
  | fuel + 1, s =>
    let r := os.select s (readable_args client_fd)
    let ev := Event.select (readable_args client_fd) r.1
    if r.1.ret < 0 then
      if r.1.errno = EINTR then
        let k := session_loop os echo client_fd fuel r.2
        ⟨ev :: k.trace, k.state, k.result⟩
      else
        ⟨[ev, Event.perror "select"], r.2, some 1⟩
    else
      let t1 : Run σ Int :=
        if STDIN_FILENO ∈ r.1.readfds then transfer_data os fuel r.2 STDIN_FILENO client_fd
        else ⟨[], r.2, some 0⟩
      match t1.result with
      | none => ⟨ev :: t1.trace, t1.state, none⟩
      | some v1 =>
        if v1 < 0 then ⟨ev :: t1.trace, t1.state, some 0⟩
        else
          let t2 : Run σ Int :=
            if client_fd ∈ r.1.readfds then
              transfer_data os fuel t1.state client_fd
                (if echo then client_fd else STDOUT_FILENO)
            else ⟨[], t1.state, some 0⟩
          match t2.result with
          | none => ⟨ev :: (t1.trace ++ t2.trace), t2.state, none⟩
          | some v2 =>
            if v2 < 0 then ⟨ev :: (t1.trace ++ t2.trace), t2.state, some 0⟩
            else
              let k := session_loop os echo client_fd fuel t2.state
              ⟨ev :: (t1.trace ++ (t2.trace ++ k.trace)), k.state, k.result⟩

/-! ## `set_non_blocking` (lines 28–44) -/

/-- Value of `O_NONBLOCK` in `<fcntl.h>` (Linux, `04000`). -/
def O_NONBLOCK : Nat := 2048

/-- Bit pattern of `~O_NONBLOCK` in a 32-bit `int`. -/
def NOT_O_NONBLOCK : Nat := 2 ^ 32 - 1 - O_NONBLOCK

/-- What `fcntl` knows of a descriptor: nothing it can report (`F_GETFL`
fails), or its file status flag word. -/
inductive Descriptor where
  | invalid
  | valid (flags : Nat)
deriving DecidableEq, Repr

/-- Result of `fcntl(fd, F_GETFL)`: the flag word, `-1` on failure. -/
def fcntl_getfl : Descriptor → Int
  | .invalid => -1
  | .valid flags => (flags : Int)

/-- Effect of `fcntl(fd, F_SETFL, flags)`: the flag word of a valid descriptor
becomes `flags`. -/
def fcntl_setfl : Descriptor → Nat → Descriptor
  | .invalid, _ => .invalid
  | .valid _, flags => .valid flags

/-- Lines 28–44; returns the descriptor as the function leaves it and what it
printed with `perror`.  `ret` is not negative where the bit operations are
made, so they are those of natural numbers on the 32-bit patterns. -/
def set_non_blocking (fd : Descriptor) (enable : Bool) : Descriptor × List Event :=
  let ret := fcntl_getfl fd
  if ret < 0 then (fd, [Event.perror "fcntl"])
  else
    let flags := ret.toNat &&& NOT_O_NONBLOCK
    let flags := if enable then flags ||| O_NONBLOCK else flags
    (fcntl_setfl fd flags, [])

/-! ## Concrete operating systems used to run the model -/

/-- A destination taking at most `n` bytes per `write`, always writable; `read`
delivers `chunk`.  The state counts the calls made. -/
def os_short (chunk : List Byte) (n : Int) : OS Nat where
  read := fun s _ _ => (ReadResult.data chunk, s + 1)
  write := fun s _ _ count => (⟨min n count, 0⟩, s + 1)
  select := fun s a => (⟨1, 0, a.readfds.getD [], a.writefds.getD []⟩, s + 1)

/-- An operating system that answers from three scripts, one per system call,
in order; the state counts the calls of each kind already answered.  When a
script is exhausted `read` reports end of stream, `write` fails with `EIO` and
`select` fails with `EBADF`. -/
def os_script (reads : List ReadResult) (writes : List WriteResult)
    (selects : List SelectResult) : OS (Nat × Nat × Nat) where
  read := fun s _ _ => (reads.getD s.1 (ReadResult.data []), (s.1 + 1, s.2.1, s.2.2))
  write := fun s _ _ _ => (writes.getD s.2.1 ⟨-1, 5⟩, (s.1, s.2.1 + 1, s.2.2))
  select := fun s _ => (selects.getD s.2.2 ⟨-1, 9, [], []⟩, (s.1, s.2.1, s.2.2 + 1))

/-- A destination like that of `os_short`, except that every `select` is
answered with `sel`. -/
def os_no_wait (chunk : List Byte) (n : Int) (sel : SelectResult) : OS Nat where
  read := fun s _ _ => (ReadResult.data chunk, s + 1)
  write := fun s _ _ count => (⟨min n count, 0⟩, s + 1)
  select := fun s _ => (sel, s + 1)

/-! ## Predicates on traces -/

/-- Every event of the trace, together with the events that follow it, satisfies `Q`. -/
def Each (Q : Event → List Event → Prop) : List Event → Prop
  | [] => True
  | e :: post => Q e post ∧ Each Q post

/-- The event is a `write` call. -/
def Event.isWrite : Event → Bool
  | .write _ _ _ _ _ => true
  | _ => false

/-! ## The shape of the traces

The relations below describe, independently of the operating system and of the
step budget, which traces and results the four functions can produce; each
constructor is one path through the corresponding function. -/

/-- Traces of `wait_writable`. -/
inductive WaitRun (out_fd : Int) : List Event → Option WaitExit → Prop
  | fuel : WaitRun out_fd [] none
  | eintr (res : SelectResult) (t : List Event) (r : Option WaitExit) :
      res.ret < 0 → res.errno = EINTR → WaitRun out_fd t r →
      WaitRun out_fd (Event.select (writable_args out_fd) res :: t) r
  | fail (res : SelectResult) :
      res.ret < 0 → res.errno ≠ EINTR →
      WaitRun out_fd [Event.select (writable_args out_fd) res, Event.perror "select"]
        (some WaitExit.failed)
  | ready (res : SelectResult) :
      ¬ res.ret < 0 → out_fd ∈ res.writefds →
      WaitRun out_fd [Event.select (writable_args out_fd) res] (some WaitExit.writable)
  | again (res : SelectResult) (t : List Event) (r : Option WaitExit) :
      ¬ res.ret < 0 → out_fd ∉ res.writefds → WaitRun out_fd t r →
      WaitRun out_fd (Event.select (writable_args out_fd) res :: t) r

/-- Line 69: the wait is entered only when `remaining > nbytes`. -/
def MaybeWait (out_fd : Int) (remaining nbytes : Int) (t : List Event)
    (r : Option WaitExit) : Prop :=
  (remaining > nbytes ∧ WaitRun out_fd t r) ∨
  (¬ remaining > nbytes ∧ t = [] ∧ r = some WaitExit.writable)

/-- Traces of `write_loop` entered with offset `off` and `rem` bytes remaining. -/
inductive LoopRun (out_fd : Int) (buf : List Byte) : Int → Int → List Event → Option Int → Prop
  | done (off rem : Int) : ¬ rem > 0 → LoopRun out_fd buf off rem [] (some 0)
  | fuel (off rem : Int) : rem > 0 → LoopRun out_fd buf off rem [] none
  | fatal (off rem : Int) (res : WriteResult) :
      rem > 0 → write_nbytes res = none →
      LoopRun out_fd buf off rem [Event.write out_fd off rem (slice buf off rem) res] (some (-1))
  | stuck (off rem : Int) (res : WriteResult) (nb : Int) (wt : List Event) :
      rem > 0 → write_nbytes res = some nb → MaybeWait out_fd rem nb wt none →
      LoopRun out_fd buf off rem
        (Event.write out_fd off rem (slice buf off rem) res :: wt) none
  | wfail (off rem : Int) (res : WriteResult) (nb : Int) (wt : List Event) :
      rem > 0 → write_nbytes res = some nb → MaybeWait out_fd rem nb wt (some WaitExit.failed) →
      LoopRun out_fd buf off rem
        (Event.write out_fd off rem (slice buf off rem) res :: wt) (some (-1))
  | next (off rem : Int) (res : WriteResult) (nb : Int) (wt k : List Event) (r : Option Int) :
      rem > 0 → write_nbytes res = some nb →
      MaybeWait out_fd rem nb wt (some WaitExit.writable) →
      LoopRun out_fd buf (off + nb) (rem - nb) k r →
      LoopRun out_fd buf off rem
        (Event.write out_fd off rem (slice buf off rem) res :: (wt ++ k)) r

/-- Traces of `transfer_data`. -/
inductive TransferRun (in_fd out_fd : Int) : List Event → Option Int → Prop
  | closed (res : ReadResult) :
      res.ret ≤ 0 → TransferRun in_fd out_fd [Event.read in_fd BUF_SIZE res] (some (-1))
  | chunk (res : ReadResult) (k : List Event) (r : Option Int) :
      ¬ res.ret ≤ 0 → LoopRun out_fd res.bytes 0 res.ret k r →
      TransferRun in_fd out_fd (Event.read in_fd BUF_SIZE res :: k) r

/-- Lines 178 and 184: a transfer is made only when the source is in the read set. -/
def MaybeTransfer (ready : Prop) (in_fd out_fd : Int) (t : List Event) (r : Option Int) : Prop :=
  (ready ∧ TransferRun in_fd out_fd t r) ∨ (¬ ready ∧ t = [] ∧ r = some 0)

/-- The destination of the transfer from the connection (line 185). -/
def client_dest (echo : Bool) (client_fd : Int) : Int :=
  if echo then client_fd else STDOUT_FILENO

/-- Traces of `session_loop`. -/
inductive SessionRun (echo : Bool) (client_fd : Int) : List Event → Option Int → Prop
  | fuel : SessionRun echo client_fd [] none
  | eintr (res : SelectResult) (k : List Event) (r : Option Int) :
      res.ret < 0 → res.errno = EINTR → SessionRun echo client_fd k r →
      SessionRun echo client_fd (Event.select (readable_args client_fd) res :: k) r
  | fail (res : SelectResult) :
      res.ret < 0 → res.errno ≠ EINTR →
      SessionRun echo client_fd
        [Event.select (readable_args client_fd) res, Event.perror "select"] (some 1)
  | stuck1 (res : SelectResult) (t1 : List Event) :
      ¬ res.ret < 0 →
      MaybeTransfer (STDIN_FILENO ∈ res.readfds) STDIN_FILENO client_fd t1 none →
      SessionRun echo client_fd (Event.select (readable_args client_fd) res :: t1) none
  | end1 (res : SelectResult) (t1 : List Event) (v1 : Int) :
      ¬ res.ret < 0 →
      MaybeTransfer (STDIN_FILENO ∈ res.readfds) STDIN_FILENO client_fd t1 (some v1) →
      v1 < 0 →
      SessionRun echo client_fd (Event.select (readable_args client_fd) res :: t1) (some 0)
  | stuck2 (res : SelectResult) (t1 : List Event) (v1 : Int) (t2 : List Event) :
      ¬ res.ret < 0 →
      MaybeTransfer (STDIN_FILENO ∈ res.readfds) STDIN_FILENO client_fd t1 (some v1) →
      ¬ v1 < 0 →
      MaybeTransfer (client_fd ∈ res.readfds) client_fd (client_dest echo client_fd) t2 none →
      SessionRun echo client_fd
        (Event.select (readable_args client_fd) res :: (t1 ++ t2)) none
  | end2 (res : SelectResult) (t1 : List Event) (v1 : Int) (t2 : List Event) (v2 : Int) :
      ¬ res.ret < 0 →
      MaybeTransfer (STDIN_FILENO ∈ res.readfds) STDIN_FILENO client_fd t1 (some v1) →
      ¬ v1 < 0 →
      MaybeTransfer (client_fd ∈ res.readfds) client_fd (client_dest echo client_fd) t2
        (some v2) →
      v2 < 0 →
      SessionRun echo client_fd
        (Event.select (readable_args client_fd) res :: (t1 ++ t2)) (some 0)
  | next (res : SelectResult) (t1 : List Event) (v1 : Int) (t2 : List Event) (v2 : Int)
      (k : List Event) (r : Option Int) :
      ¬ res.ret < 0 →
      MaybeTransfer (STDIN_FILENO ∈ res.readfds) STDIN_FILENO client_fd t1 (some v1) →
      ¬ v1 < 0 →
      MaybeTransfer (client_fd ∈ res.readfds) client_fd (client_dest echo client_fd) t2
        (some v2) →
      ¬ v2 < 0 →
      SessionRun echo client_fd k r →
      SessionRun echo client_fd
        (Event.select (readable_args client_fd) res :: (t1 ++ (t2 ++ k))) r

/-! ## Properties of events and traces used in the statements -/

/-- Line 65 is reached and taken: the result of `write` is zero, or negative
with `errno` other than `EAGAIN`. -/
def fatal_write (res : WriteResult) : Prop :=
  res.ret = 0 ∨ (res.ret < 0 ∧ res.errno ≠ EAGAIN)

/-- After a fatal write nothing follows and the run has returned `-1`. -/
def FatalLast (r : Option Int) (e : Event) (post : List Event) : Prop :=
  ∀ fd off cnt bytes res, e = Event.write fd off cnt bytes res → fatal_write res →
    post = [] ∧ r = some (-1)

/-- What follows a write that failed with `EAGAIN`. -/
def WouldBlockWaits (out_fd : Int) (r : Option Int) (e : Event) (post : List Event) : Prop :=
  ∀ fd off cnt bytes res, e = Event.write fd off cnt bytes res →
    res.ret < 0 → res.errno = EAGAIN →
    fd = out_fd ∧
    ((post = [] ∧ r = none) ∨
      ∃ sres post2, post = Event.select (writable_args fd) sres :: post2) ∧
    ∀ e2, post.find? Event.isWrite = some e2 →
      ∃ res2, e2 = Event.write fd off cnt bytes res2

/-- What follows a `select` that failed with `EINTR`: the same call, or nothing
yet, in which case the run is `unfinished`. -/
def Retried (unfinished : Prop) (e : Event) (post : List Event) : Prop :=
  ∀ args res, e = Event.select args res → res.ret < 0 → res.errno = EINTR →
    (post = [] ∧ unfinished) ∨ ∃ res2 post2, post = Event.select args res2 :: post2

/-- The results on which `transfer_data` or the session loop gives up: a read
that returns zero or less (line 56), a write that returns zero, or a negative
value with `errno` other than `EAGAIN` (line 65), a `select` that fails with
`errno` other than `EINTR` (lines 75–80 and 169–174). -/
def stops : Event → Prop
  | .read _ _ res => res.ret ≤ 0
  | .write _ _ _ _ res => fatal_write res
  | .select _ res => res.ret < 0 ∧ res.errno ≠ EINTR
  | .perror _ => False

/-- The events that follow a stopping event: `perror("select")` after a failed
`select` (lines 79 and 173), nothing after a read or a write. -/
def aftermath : Event → List Event
  | .select _ _ => [Event.perror "select"]
  | _ => []

/-- The exit code after a stopping event: 1 (line 174) for the `select` of the
session loop, 0 (lines 180 and 186) for every event of a transfer. -/
def exit_code (client_fd : Int) : Event → Int
  | .select args _ => if args = readable_args client_fd then 1 else 0
  | _ => 0

/-- Within a transfer: a stopping event is followed by its aftermath only, the
run has returned `v`, and the event is not the readiness wait of any session. -/
def StopsTransfer {α : Type} (v : α) (r : Option α) (e : Event) (post : List Event) : Prop :=
  stops e → (∀ c, exit_code c e = 0) ∧ post = aftermath e ∧ r = some v

/-- Within the session: a stopping event is followed by its aftermath only and
the loop has returned the exit code that belongs to the event. -/
def StopsSession (client_fd : Int) (r : Option Int) (e : Event) (post : List Event) : Prop :=
  stops e → post = aftermath e ∧ r = some (exit_code client_fd e)

/-- The most recent `read` of a trace (descriptor and result), `cur` when the
trace has none. -/
def current_read (cur : Option (Int × ReadResult)) : List Event → Option (Int × ReadResult)
  | [] => cur
  | Event.read fd _ res :: t => current_read (some (fd, res)) t
  | _ :: t => current_read cur t

/-- Every write of the trace goes to a destination allowed (`G`) for the source
of the most recent read, and offers the bytes that read stored at the offset of
the write. -/
def Routed (G : Int → Int → Prop) : Option (Int × ReadResult) → List Event → Prop
  | _, [] => True
  | _, Event.read fd _ res :: t => Routed G (some (fd, res)) t
  | cur, Event.write fd off cnt bytes _ :: t =>
    (∃ src rres, cur = some (src, rres) ∧ G src fd ∧ bytes = slice rres.bytes off cnt) ∧
      Routed G cur t
  | cur, Event.select _ _ :: t => Routed G cur t
  | cur, Event.perror _ :: t => Routed G cur t

/-- The two routes of lines 179 and 185: standard input to the connection, the
connection to itself (echo) or to standard output. -/
def route (echo : Bool) (client_fd : Int) (src dst : Int) : Prop :=
  (src = STDIN_FILENO ∧ dst = client_fd) ∨
  (src = client_fd ∧ dst = (if echo then client_fd else STDOUT_FILENO))

/-- The bytes a call hands over to its destination: the first `ret` of the
bytes offered by a `write` that returned `ret > 0`, nothing otherwise. -/
def accepted_bytes : Event → List Byte
  | .write _ _ _ bytes res => bytes.take res.ret.toNat
  | _ => []

/-- The bytes accepted along a trace, in call order. -/
def accepted : List Event → List Byte
  | [] => []
  | e :: t => accepted_bytes e ++ accepted t

/-- The write did not return more than it was asked to write. -/
def within_request : Event → Prop
  | .write _ _ cnt _ res => 0 < res.ret → res.ret ≤ cnt
  | _ => True

/-- Holds when `Q` is true of every event that is preceded only by events satisfying `ok`. -/
def Guarded (ok Q : Event → Prop) : List Event → Prop
  | [] => True
  | e :: t => Q e ∧ (ok e → Guarded ok Q t)

/-- The state at the head of the iteration that makes the write `e`, for a
buffer filled with `buf`: the offset and the remaining count add up to the
number of bytes read, the range requested lies inside the filled part, and when
the write returns no more than requested the updated offset and count are not
negative and still add up. -/
def InBuffer (out_fd : Int) (buf : List Byte) (e : Event) : Prop :=
  ∀ fd off cnt bytes res, e = Event.write fd off cnt bytes res →
    fd = out_fd ∧ 0 ≤ off ∧ 0 < cnt ∧ off + cnt = buf.length ∧ bytes = slice buf off cnt ∧
    (res.ret ≤ cnt → ∀ nb, write_nbytes res = some nb →
      0 ≤ off + nb ∧ 0 ≤ cnt - nb ∧ (off + nb) + (cnt - nb) = buf.length)

/-! ## Lists of events -/

theorem each_iff {Q : Event → List Event → Prop} {t : List Event} :
    Each Q t ↔ ∀ pre e post, t = pre ++ e :: post → Q e post := by
  induction t with
  | nil => simp [Each]
  | cons a t ih =>
    simp only [Each, ih]
    constructor
    · rintro ⟨h1, h2⟩ pre e post h
      rcases pre with _ | ⟨b, pre⟩
      · simp only [List.nil_append, List.cons.injEq] at h
        obtain ⟨rfl, rfl⟩ := h
        exact h1
      · simp only [List.cons_append, List.cons.injEq] at h
        exact h2 pre e post h.2
    · intro h
      exact ⟨h [] a t rfl, fun pre e post hp => h (a :: pre) e post (by simp [hp])⟩

theorem each_append {Q : Event → List Event → Prop} {a b : List Event} :
    Each Q (a ++ b) ↔ Each (fun e post => Q e (post ++ b)) a ∧ Each Q b := by
  induction a with
  | nil => simp [Each]
  | cons x a ih =>
    rw [List.cons_append]
    simp only [Each, ih, and_assoc]

theorem each_mono {Q Q2 : Event → List Event → Prop} {t : List Event}
    (h : ∀ e post, Q e post → Q2 e post) : Each Q t → Each Q2 t := by
  induction t with
  | nil => simp [Each]
  | cons x t ih => exact fun ⟨h1, h2⟩ => ⟨h _ _ h1, ih h2⟩

theorem each_of_forall {Q : Event → List Event → Prop} {t : List Event}
    (h : ∀ e ∈ t, ∀ post, Q e post) : Each Q t := by
  induction t with
  | nil => simp [Each]
  | cons x t ih =>
    exact ⟨h x (by simp) t, ih (fun e he => h e (List.mem_cons_of_mem _ he))⟩

/-! ## The functions produce traces of these shapes -/

theorem wait_writable_run {σ : Type} (os : OS σ) (out_fd : Int) (fuel : Nat) (s : σ) :
    WaitRun out_fd (wait_writable os out_fd fuel s).trace
      (wait_writable os out_fd fuel s).result := by
  induction fuel generalizing s with
  | zero => exact WaitRun.fuel
  | succ fuel ih =>
    simp only [wait_writable]
    split_ifs with h1 h2 h3
    · exact WaitRun.eintr _ _ _ h1 h2 (ih _)
    · exact WaitRun.fail _ h1 h2
    · exact WaitRun.ready _ h1 h3
    · exact WaitRun.again _ _ _ h1 h3 (ih _)

theorem write_loop_run {σ : Type} (os : OS σ) (out_fd : Int) (buf : List Byte) (fuel : Nat)
    (s : σ) (off rem : Int) :
    LoopRun out_fd buf off rem (write_loop os out_fd buf fuel s off rem).trace
      (write_loop os out_fd buf fuel s off rem).result := by
  induction fuel generalizing s off rem with
  | zero =>
    simp only [write_loop]
    split_ifs with h
    · exact LoopRun.fuel _ _ h
    · exact LoopRun.done _ _ h
  | succ fuel ih =>
    simp only [write_loop]
    split_ifs with h
    · split
      · next hn => exact LoopRun.fatal _ _ _ h hn
      · next nb hn =>
        have hw : MaybeWait out_fd rem nb
            (if rem > nb then wait_writable os out_fd fuel
                (os.write s out_fd (slice buf off rem) rem).2
              else ⟨[], (os.write s out_fd (slice buf off rem) rem).2,
                some WaitExit.writable⟩).trace
            (if rem > nb then wait_writable os out_fd fuel
                (os.write s out_fd (slice buf off rem) rem).2
              else ⟨[], (os.write s out_fd (slice buf off rem) rem).2,
                some WaitExit.writable⟩).result := by
          split_ifs with h2
          · exact Or.inl ⟨h2, wait_writable_run os out_fd fuel _⟩
          · exact Or.inr ⟨h2, rfl, rfl⟩
        split
        · next hr => rw [hr] at hw; exact LoopRun.stuck _ _ _ _ _ h hn hw
        · next hr => rw [hr] at hw; exact LoopRun.wfail _ _ _ _ _ h hn hw
        · next hr => rw [hr] at hw; exact LoopRun.next _ _ _ _ _ _ _ h hn hw (ih _ _ _)
    · exact LoopRun.done _ _ h

theorem transfer_data_run {σ : Type} (os : OS σ) (fuel : Nat) (s : σ) (in_fd out_fd : Int) :
    TransferRun in_fd out_fd (transfer_data os fuel s in_fd out_fd).trace
      (transfer_data os fuel s in_fd out_fd).result := by
  simp only [transfer_data]
  split_ifs with h
  · exact TransferRun.closed _ h
  · exact TransferRun.chunk _ _ _ h (write_loop_run os out_fd _ fuel _ 0 _)

theorem session_loop_run {σ : Type} (os : OS σ) (echo : Bool) (client_fd : Int) (fuel : Nat)
    (s : σ) :
    SessionRun echo client_fd (session_loop os echo client_fd fuel s).trace
      (session_loop os echo client_fd fuel s).result := by
  induction fuel generalizing s with
  | zero => exact SessionRun.fuel
  | succ fuel ih =>
    simp only [session_loop]
    generalize os.select s (readable_args client_fd) = r
    by_cases h1 : r.1.ret < 0
    · by_cases h2 : r.1.errno = EINTR
      · simp only [h1, h2, if_true]
        exact SessionRun.eintr _ _ _ h1 h2 (ih _)
      · simp only [h1, h2, if_true, if_false]
        exact SessionRun.fail _ h1 h2
    · simp only [h1, if_false]
      generalize ht1 : (if STDIN_FILENO ∈ r.1.readfds then
          transfer_data os fuel r.2 STDIN_FILENO client_fd
        else (⟨[], r.2, some 0⟩ : Run σ Int)) = t1
      have hm1 : MaybeTransfer (STDIN_FILENO ∈ r.1.readfds) STDIN_FILENO client_fd
          t1.trace t1.result := by
        rw [← ht1]
        split_ifs with h
        · exact Or.inl ⟨h, transfer_data_run os fuel _ _ _⟩
        · exact Or.inr ⟨h, rfl, rfl⟩
      cases hr1 : t1.result with
      | none => rw [hr1] at hm1; exact SessionRun.stuck1 _ _ h1 hm1
      | some v1 =>
        rw [hr1] at hm1
        simp only []
        by_cases hv1 : v1 < 0
        · simp only [hv1, if_true]
          exact SessionRun.end1 _ _ _ h1 hm1 hv1
        · simp only [hv1, if_false]
          generalize ht2 : (if client_fd ∈ r.1.readfds then
              transfer_data os fuel t1.state client_fd
                (if echo = true then client_fd else STDOUT_FILENO)
            else (⟨[], t1.state, some 0⟩ : Run σ Int)) = t2
          have hm2 : MaybeTransfer (client_fd ∈ r.1.readfds) client_fd
              (client_dest echo client_fd) t2.trace t2.result := by
            rw [← ht2]
            by_cases h : client_fd ∈ r.1.readfds
            · rw [if_pos h]
              exact Or.inl ⟨h, transfer_data_run os fuel _ _ _⟩
            · rw [if_neg h]
              exact Or.inr ⟨h, rfl, rfl⟩
          cases hr2 : t2.result with
          | none => rw [hr2] at hm2; exact SessionRun.stuck2 _ _ _ _ h1 hm1 hv1 hm2
          | some v2 =>
            rw [hr2] at hm2
            simp only []
            by_cases hv2 : v2 < 0
            · simp only [hv2, if_true]
              exact SessionRun.end2 _ _ _ _ _ h1 hm1 hv1 hm2 hv2
            · simp only [hv2, if_false]
              exact SessionRun.next _ _ _ _ _ _ _ h1 hm1 hv1 hm2 hv2 (ih _)

/-! ## Events of the inner loops -/

theorem waitRun_events {out_fd : Int} {t : List Event} {r : Option WaitExit}
    (h : WaitRun out_fd t r) :
    ∀ e ∈ t, (∃ res, e = Event.select (writable_args out_fd) res) ∨
      e = Event.perror "select" := by
  induction h with
  | fuel => simp
  | eintr res t r _ _ _ ih =>
    intro e he
    rcases List.mem_cons.1 he with rfl | he
    · exact Or.inl ⟨_, rfl⟩
    · exact ih e he
  | fail res _ _ =>
    intro e he
    simp only [List.mem_cons, List.mem_singleton, List.not_mem_nil, or_false] at he
    rcases he with rfl | rfl
    · exact Or.inl ⟨_, rfl⟩
    · exact Or.inr rfl
  | ready res _ _ =>
    intro e he
    simp only [List.mem_singleton] at he
    exact Or.inl ⟨_, he⟩
  | again res t r _ _ _ ih =>
    intro e he
    rcases List.mem_cons.1 he with rfl | he
    · exact Or.inl ⟨_, rfl⟩
    · exact ih e he

theorem maybeWait_events {out_fd : Int} {rem nb : Int} {t : List Event} {r : Option WaitExit}
    (h : MaybeWait out_fd rem nb t r) :
    ∀ e ∈ t, (∃ res, e = Event.select (writable_args out_fd) res) ∨
      e = Event.perror "select" := by
  rcases h with ⟨_, h⟩ | ⟨_, rfl, _⟩
  · exact waitRun_events h
  · simp

/-- A property that holds of every `select` and `perror` event, whatever follows,
holds throughout the trace of a wait. -/
theorem each_maybeWait {Q : Event → List Event → Prop} {out_fd : Int} {rem nb : Int}
    {t : List Event} {r : Option WaitExit} (h : MaybeWait out_fd rem nb t r)
    (hsel : ∀ a res post, Q (Event.select a res) post)
    (hperror : ∀ m post, Q (Event.perror m) post) : Each Q t := by
  refine each_of_forall (fun e he post => ?_)
  rcases maybeWait_events h e he with ⟨res, rfl⟩ | rfl
  · exact hsel _ _ _
  · exact hperror _ _

/-! ## C8: a fatal write ends the transfer -/

theorem write_nbytes_eq_none {res : WriteResult} :
    write_nbytes res = none ↔ fatal_write res := by
  unfold write_nbytes fatal_write
  split_ifs with h1 h2
  · simp only [reduceCtorEq, false_iff]; rintro (h | ⟨_, h⟩)
    · omega
    · exact h h1.2
  · simp only [true_iff]
    by_cases h0 : res.ret = 0
    · exact Or.inl h0
    · refine Or.inr ⟨by omega, fun he => h1 ⟨by omega, he⟩⟩
  · simp only [reduceCtorEq, false_iff]; rintro (h | ⟨h, _⟩) <;> omega

theorem loopRun_fatal {out_fd : Int} {buf : List Byte} {off rem : Int} {t : List Event}
    {r : Option Int} (h : LoopRun out_fd buf off rem t r) : Each (FatalLast r) t := by
  induction h with
  | done => trivial
  | fuel => trivial
  | fatal off rem res _ hn =>
    refine ⟨?_, trivial⟩
    intro fd o c b res2 _ _
    exact ⟨rfl, rfl⟩
  | stuck off rem res nb wt _ hn hw =>
    refine ⟨?_, each_maybeWait hw (fun _ _ _ _ _ _ _ _ he => by cases he)
      (fun _ _ _ _ _ _ _ he => by cases he)⟩
    intro fd o c b res2 he hf
    cases he
    rw [write_nbytes_eq_none.2 hf] at hn; cases hn
  | wfail off rem res nb wt _ hn hw =>
    refine ⟨?_, each_maybeWait hw (fun _ _ _ _ _ _ _ _ he => by cases he)
      (fun _ _ _ _ _ _ _ he => by cases he)⟩
    intro fd o c b res2 he hf
    cases he
    rw [write_nbytes_eq_none.2 hf] at hn; cases hn
  | next off rem res nb wt k r _ hn hw _ ih =>
    refine ⟨?_, each_append.2 ⟨each_maybeWait hw (fun _ _ _ _ _ _ _ _ he => by cases he)
      (fun _ _ _ _ _ _ _ he => by cases he), ih⟩⟩
    intro fd o c b res2 he hf
    cases he
    rw [write_nbytes_eq_none.2 hf] at hn; cases hn

theorem transferRun_fatal {in_fd out_fd : Int} {t : List Event} {r : Option Int}
    (h : TransferRun in_fd out_fd t r) : Each (FatalLast r) t := by
  cases h with
  | closed res _ => exact ⟨(fun _ _ _ _ _ he => by cases he), trivial⟩
  | chunk res k r _ hl => exact ⟨(fun _ _ _ _ _ he => by cases he), loopRun_fatal hl⟩

/-- C8: in every run of `transfer_data`, a write attempt that returns 0, or a
negative value with `errno` other than `EAGAIN`, is the last event of the run
(no further write or wait follows, whatever was written before it) and the
function has returned `-1`. -/
theorem transfer_data_fatal_write {σ : Type} (os : OS σ) (fuel : Nat) (s : σ)
    (in_fd out_fd : Int) (pre post : List Event) (fd off cnt : Int) (bytes : List Byte)
    (res : WriteResult)
    (htrace : (transfer_data os fuel s in_fd out_fd).trace =
      pre ++ Event.write fd off cnt bytes res :: post)
    (hres : res.ret = 0 ∨ (res.ret < 0 ∧ res.errno ≠ EAGAIN)) :
    post = [] ∧ (transfer_data os fuel s in_fd out_fd).result = some (-1) :=
  each_iff.1 (transferRun_fatal (transfer_data_run os fuel s in_fd out_fd)) pre _ post htrace
    fd off cnt bytes res rfl hres

/-- C8 at a run where two bytes of a four-byte chunk are written before a write returns 0. -/
theorem transfer_data_fatal_write_witness :
    ([] : List Event) = [] ∧
      (transfer_data (os_script [ReadResult.data [1, 2, 3, 4]] [⟨2, 0⟩, ⟨0, 0⟩]
        [⟨1, 0, [], [5]⟩]) 8 (0, 0, 0) 0 5).result = some (-1) :=
  transfer_data_fatal_write
    (os_script [ReadResult.data [1, 2, 3, 4]] [⟨2, 0⟩, ⟨0, 0⟩] [⟨1, 0, [], [5]⟩]) 8 (0, 0, 0) 0 5
    [Event.read 0 4096 (ReadResult.data [1, 2, 3, 4]), Event.write 5 0 4 [1, 2, 3, 4] ⟨2, 0⟩,
      Event.select (writable_args 5) ⟨1, 0, [], [5]⟩] [] 5 2 2 [3, 4] ⟨0, 0⟩
    (by decide) (Or.inl rfl)

/-! ## C6: a write that would block is followed by a wait -/

theorem waitRun_head {out_fd : Int} {t : List Event} {r : Option WaitExit}
    (h : WaitRun out_fd t r) :
    (t = [] ∧ r = none) ∨ ∃ sres t2, t = Event.select (writable_args out_fd) sres :: t2 := by
  cases h with
  | fuel => exact Or.inl ⟨rfl, rfl⟩
  | eintr res t r _ _ _ => exact Or.inr ⟨_, _, rfl⟩
  | fail res _ _ => exact Or.inr ⟨_, _, rfl⟩
  | ready res _ _ => exact Or.inr ⟨_, _, rfl⟩
  | again res t r _ _ _ => exact Or.inr ⟨_, _, rfl⟩

theorem maybeWait_find_write {out_fd : Int} {rem nb : Int} {t : List Event}
    {r : Option WaitExit} (h : MaybeWait out_fd rem nb t r) :
    t.find? Event.isWrite = none := by
  rw [List.find?_eq_none]
  intro e he
  rcases maybeWait_events h e he with ⟨res, rfl⟩ | rfl <;> simp [Event.isWrite]

theorem loopRun_first_write {out_fd : Int} {buf : List Byte} {off rem : Int} {t : List Event}
    {r : Option Int} (h : LoopRun out_fd buf off rem t r) :
    ∀ e, t.find? Event.isWrite = some e →
      ∃ res, e = Event.write out_fd off rem (slice buf off rem) res := by
  intro e he
  cases h with
  | done => simp at he
  | fuel => simp at he
  | fatal _ _ res _ _ =>
    simp only [List.find?_cons, Event.isWrite, Option.some.injEq] at he
    exact ⟨res, he.symm⟩
  | stuck _ _ res nb wt _ _ _ =>
    simp only [List.find?_cons, Event.isWrite, Option.some.injEq] at he
    exact ⟨res, he.symm⟩
  | wfail _ _ res nb wt _ _ _ =>
    simp only [List.find?_cons, Event.isWrite, Option.some.injEq] at he
    exact ⟨res, he.symm⟩
  | next _ _ res nb wt k r _ _ _ _ =>
    simp only [List.find?_cons, Event.isWrite, Option.some.injEq] at he
    exact ⟨res, he.symm⟩

theorem write_nbytes_would_block {res : WriteResult} (h1 : res.ret < 0)
    (h2 : res.errno = EAGAIN) : write_nbytes res = some 0 := by
  unfold write_nbytes
  rw [if_pos ⟨h1, h2⟩]

theorem loopRun_would_block {out_fd : Int} {buf : List Byte} {off rem : Int} {t : List Event}
    {r : Option Int} (h : LoopRun out_fd buf off rem t r) : Each (WouldBlockWaits out_fd r) t := by
  induction h with
  | done => trivial
  | fuel => trivial
  | fatal off rem res _ hn =>
    refine ⟨?_, trivial⟩
    intro fd o c b res2 he h1 h2
    cases he
    rw [write_nbytes_would_block h1 h2] at hn; cases hn
  | stuck off rem res nb wt hrem hn hw =>
    refine ⟨?_, each_maybeWait hw (fun _ _ _ _ _ _ _ _ he => by cases he)
      (fun _ _ _ _ _ _ _ he => by cases he)⟩
    intro fd o c b res2 he h1 h2
    cases he
    rw [write_nbytes_would_block h1 h2] at hn
    cases hn
    refine ⟨rfl, ?_, fun e2 he2 => ?_⟩
    · rcases hw with ⟨_, hw⟩ | ⟨hno, _, _⟩
      · rcases waitRun_head hw with ⟨h, _⟩ | h
        · exact Or.inl ⟨h, rfl⟩
        · exact Or.inr h
      · exact absurd hrem hno
    · rw [maybeWait_find_write hw] at he2; cases he2
  | wfail off rem res nb wt hrem hn hw =>
    refine ⟨?_, each_maybeWait hw (fun _ _ _ _ _ _ _ _ he => by cases he)
      (fun _ _ _ _ _ _ _ he => by cases he)⟩
    intro fd o c b res2 he h1 h2
    cases he
    rw [write_nbytes_would_block h1 h2] at hn
    cases hn
    refine ⟨rfl, ?_, fun e2 he2 => ?_⟩
    · rcases hw with ⟨_, hw⟩ | ⟨hno, _, _⟩
      · rcases waitRun_head hw with ⟨_, h⟩ | h
        · cases h
        · exact Or.inr h
      · exact absurd hrem hno
    · rw [maybeWait_find_write hw] at he2; cases he2
  | next off rem res nb wt k r hrem hn hw hk ih =>
    refine ⟨?_, each_append.2 ⟨each_maybeWait hw (fun _ _ _ _ _ _ _ _ he => by cases he)
      (fun _ _ _ _ _ _ _ he => by cases he), ih⟩⟩
    intro fd o c b res2 he h1 h2
    cases he
    rw [write_nbytes_would_block h1 h2] at hn
    cases hn
    refine ⟨rfl, ?_, fun e2 he2 => ?_⟩
    · rcases hw with ⟨_, hw⟩ | ⟨hno, _, _⟩
      · rcases waitRun_head hw with ⟨_, h⟩ | ⟨sres, t2, h⟩
        · cases h
        · exact Or.inr ⟨sres, t2 ++ k, by rw [h]; rfl⟩
      · exact absurd hrem hno
    · rw [List.find?_append, maybeWait_find_write hw] at he2
      simp only [Option.none_or] at he2
      have := loopRun_first_write hk e2 he2
      simpa using this

theorem transferRun_would_block {in_fd out_fd : Int} {t : List Event} {r : Option Int}
    (h : TransferRun in_fd out_fd t r) : Each (WouldBlockWaits out_fd r) t := by
  cases h with
  | closed res _ => exact ⟨(fun _ _ _ _ _ he => by cases he), trivial⟩
  | chunk res k r _ hl => exact ⟨(fun _ _ _ _ _ he => by cases he), loopRun_would_block hl⟩

/-- C6: in every run of `transfer_data`, after a write attempt that failed with
`EAGAIN` (negative result) the very next event, when there is one, is a
`select` with no timeout whose only set is the write set holding the
destination; when there is none the function has not returned (the budget ran
out), so the failure alone never produces a return value.  The write went to the
destination `out_fd`, and the next write attempt that follows, if any, is for
the same offset, count and bytes. -/
theorem transfer_data_would_block {σ : Type} (os : OS σ) (fuel : Nat) (s : σ)
    (in_fd out_fd : Int) (pre post : List Event) (fd off cnt : Int) (bytes : List Byte)
    (res : WriteResult)
    (htrace : (transfer_data os fuel s in_fd out_fd).trace =
      pre ++ Event.write fd off cnt bytes res :: post)
    (hret : res.ret < 0) (herrno : res.errno = EAGAIN) :
    fd = out_fd ∧
    ((post = [] ∧ (transfer_data os fuel s in_fd out_fd).result = none) ∨
      ∃ sres post2, post = Event.select
        { nfds := fd + 1, readfds := none, writefds := some [fd], exceptfds := none,
          timeout := none } sres :: post2) ∧
    ∀ e2, post.find? Event.isWrite = some e2 →
      ∃ res2, e2 = Event.write fd off cnt bytes res2 :=
  each_iff.1 (transferRun_would_block (transfer_data_run os fuel s in_fd out_fd)) pre _ post
    htrace fd off cnt bytes res rfl hret herrno

/-- C6 at a run whose first write fails with `EAGAIN` and whose second takes the chunk. -/
theorem transfer_data_would_block_witness :
    (5 : Int) = 5 ∧
    ((([Event.select (writable_args 5) ⟨1, 0, [], [5]⟩,
        Event.write 5 0 3 [1, 2, 3] ⟨3, 0⟩] : List Event) = [] ∧
      (transfer_data (os_script [ReadResult.data [1, 2, 3]] [⟨-1, 11⟩, ⟨3, 0⟩]
        [⟨1, 0, [], [5]⟩]) 8 (0, 0, 0) 0 5).result = none) ∨
      ∃ sres post2, ([Event.select (writable_args 5) ⟨1, 0, [], [5]⟩,
        Event.write 5 0 3 [1, 2, 3] ⟨3, 0⟩] : List Event) = Event.select
        { nfds := 5 + 1, readfds := none, writefds := some [5], exceptfds := none,
          timeout := none } sres :: post2) ∧
    ∀ e2, ([Event.select (writable_args 5) ⟨1, 0, [], [5]⟩,
        Event.write 5 0 3 [1, 2, 3] ⟨3, 0⟩] : List Event).find? Event.isWrite = some e2 →
      ∃ res2, e2 = Event.write 5 0 3 [1, 2, 3] res2 :=
  transfer_data_would_block
    (os_script [ReadResult.data [1, 2, 3]] [⟨-1, 11⟩, ⟨3, 0⟩] [⟨1, 0, [], [5]⟩]) 8 (0, 0, 0) 0 5
    [Event.read 0 4096 (ReadResult.data [1, 2, 3])]
    [Event.select (writable_args 5) ⟨1, 0, [], [5]⟩, Event.write 5 0 3 [1, 2, 3] ⟨3, 0⟩]
    5 0 3 [1, 2, 3] ⟨-1, 11⟩ (by decide) (by decide) (by decide)

/-! ## C7: an interrupted wait is issued again -/

theorem each_retried_append {A B : Prop} {t k : List Event} (h : Each (Retried A) t)
    (hk : A → k = [] ∧ B) : Each (fun e post => Retried B e (post ++ k)) t := by
  refine each_mono (fun e post hq => ?_) h
  intro args res he h1 h2
  rcases hq args res he h1 h2 with ⟨rfl, ha⟩ | ⟨res2, post2, rfl⟩
  · obtain ⟨rfl, hb⟩ := hk ha
    exact Or.inl ⟨rfl, hb⟩
  · exact Or.inr ⟨res2, post2 ++ k, rfl⟩

theorem each_retried_mono {A B : Prop} {t : List Event} (h : Each (Retried A) t)
    (hab : A → B) : Each (Retried B) t := by
  refine each_mono (fun e post hq => ?_) h
  intro args res he h1 h2
  rcases hq args res he h1 h2 with ⟨rfl, ha⟩ | h3
  · exact Or.inl ⟨rfl, hab ha⟩
  · exact Or.inr h3

theorem retried_of_not_select {A : Prop} {e : Event} {post : List Event}
    (h : ∀ args res, e ≠ Event.select args res) : Retried A e post :=
  fun args res he _ _ => absurd he (h args res)

theorem waitRun_retried {out_fd : Int} {t : List Event} {r : Option WaitExit}
    (h : WaitRun out_fd t r) : Each (Retried (r = none)) t := by
  induction h with
  | fuel => trivial
  | eintr res t r _ _ ht ih =>
    refine ⟨?_, ih⟩
    intro args res2 he _ _
    cases he
    rcases waitRun_head ht with h | h
    · exact Or.inl h
    · exact Or.inr h
  | fail res _ hne =>
    refine ⟨?_, retried_of_not_select (fun _ _ he => by cases he), trivial⟩
    intro args res2 he _ h2
    cases he
    exact absurd h2 hne
  | ready res hret _ =>
    refine ⟨?_, trivial⟩
    intro args res2 he h1 _
    cases he
    exact absurd h1 hret
  | again res t r hret _ _ ih =>
    refine ⟨?_, ih⟩
    intro args res2 he h1 _
    cases he
    exact absurd h1 hret

theorem maybeWait_retried {out_fd : Int} {rem nb : Int} {t : List Event}
    {r : Option WaitExit} (h : MaybeWait out_fd rem nb t r) : Each (Retried (r = none)) t := by
  rcases h with ⟨_, h⟩ | ⟨_, rfl, _⟩
  · exact waitRun_retried h
  · trivial

theorem loopRun_retried {out_fd : Int} {buf : List Byte} {off rem : Int} {t : List Event}
    {r : Option Int} (h : LoopRun out_fd buf off rem t r) : Each (Retried (r = none)) t := by
  induction h with
  | done => trivial
  | fuel => trivial
  | fatal off rem res _ _ =>
    exact ⟨retried_of_not_select (fun _ _ he => by cases he), trivial⟩
  | stuck off rem res nb wt _ _ hw =>
    exact ⟨retried_of_not_select (fun _ _ he => by cases he),
      each_retried_mono (maybeWait_retried hw) (fun _ => rfl)⟩
  | wfail off rem res nb wt _ _ hw =>
    exact ⟨retried_of_not_select (fun _ _ he => by cases he),
      each_retried_mono (maybeWait_retried hw) (fun h => by cases h)⟩
  | next off rem res nb wt k r _ _ hw _ ih =>
    exact ⟨retried_of_not_select (fun _ _ he => by cases he),
      each_append.2 ⟨each_retried_append (maybeWait_retried hw) (fun h => by cases h), ih⟩⟩

theorem transferRun_retried {in_fd out_fd : Int} {t : List Event} {r : Option Int}
    (h : TransferRun in_fd out_fd t r) : Each (Retried (r = none)) t := by
  cases h with
  | closed res _ => exact ⟨retried_of_not_select (fun _ _ he => by cases he), trivial⟩
  | chunk res k r _ hl =>
    exact ⟨retried_of_not_select (fun _ _ he => by cases he), loopRun_retried hl⟩

theorem maybeTransfer_retried {ready : Prop} {in_fd out_fd : Int} {t : List Event}
    {r : Option Int} (h : MaybeTransfer ready in_fd out_fd t r) :
    Each (Retried (r = none)) t := by
  rcases h with ⟨_, h⟩ | ⟨_, rfl, _⟩
  · exact transferRun_retried h
  · trivial

theorem sessionRun_head {echo : Bool} {client_fd : Int} {t : List Event} {r : Option Int}
    (h : SessionRun echo client_fd t r) :
    (t = [] ∧ r = none) ∨ ∃ sres t2, t = Event.select (readable_args client_fd) sres :: t2 := by
  cases h with
  | fuel => exact Or.inl ⟨rfl, rfl⟩
  | eintr => exact Or.inr ⟨_, _, rfl⟩
  | fail => exact Or.inr ⟨_, _, rfl⟩
  | stuck1 => exact Or.inr ⟨_, _, rfl⟩
  | end1 => exact Or.inr ⟨_, _, rfl⟩
  | stuck2 => exact Or.inr ⟨_, _, rfl⟩
  | end2 => exact Or.inr ⟨_, _, rfl⟩
  | next => exact Or.inr ⟨_, _, rfl⟩

theorem sessionRun_retried {echo : Bool} {client_fd : Int} {t : List Event} {r : Option Int}
    (h : SessionRun echo client_fd t r) : Each (Retried (r = none)) t := by
  have hsel : ∀ (res : SelectResult) (post : List Event) (A : Prop), ¬ res.ret < 0 →
      Retried A (Event.select (readable_args client_fd) res) post := by
    intro res post A hret args res2 he h1 _
    cases he
    exact absurd h1 hret
  induction h with
  | fuel => trivial
  | eintr res k r _ _ hk ih =>
    refine ⟨?_, ih⟩
    intro args res2 he _ _
    cases he
    rcases sessionRun_head hk with h | h
    · exact Or.inl h
    · exact Or.inr h
  | fail res _ hne =>
    refine ⟨?_, retried_of_not_select (fun _ _ he => by cases he), trivial⟩
    intro args res2 he _ h2
    cases he
    exact absurd h2 hne
  | stuck1 res t1 hret h1 =>
    exact ⟨hsel _ _ _ hret, each_retried_mono (maybeTransfer_retried h1) (fun _ => rfl)⟩
  | end1 res t1 v1 hret h1 _ =>
    exact ⟨hsel _ _ _ hret, each_retried_mono (maybeTransfer_retried h1) (fun h => by cases h)⟩
  | stuck2 res t1 v1 t2 hret h1 _ h2 =>
    exact ⟨hsel _ _ _ hret, each_append.2
      ⟨each_retried_append (maybeTransfer_retried h1) (fun h => by cases h),
        each_retried_mono (maybeTransfer_retried h2) (fun _ => rfl)⟩⟩
  | end2 res t1 v1 t2 v2 hret h1 _ h2 _ =>
    exact ⟨hsel _ _ _ hret, each_append.2
      ⟨each_retried_append (maybeTransfer_retried h1) (fun h => by cases h),
        each_retried_mono (maybeTransfer_retried h2) (fun h => by cases h)⟩⟩
  | next res t1 v1 t2 v2 k r hret h1 _ h2 _ _ ih =>
    exact ⟨hsel _ _ _ hret, each_append.2
      ⟨each_retried_append (maybeTransfer_retried h1) (fun h => by cases h), each_append.2
        ⟨each_retried_append (maybeTransfer_retried h2) (fun h => by cases h), ih⟩⟩⟩

/-- C7: in every run of the session loop — the trace holds the readiness waits
of line 169 and the writability waits made inside both transfers — a `select`
that failed with `EINTR` is directly followed by a `select` with the same
arguments: no read, write or `perror` comes between them.  When nothing follows
it, the program has not terminated (the budget ran out before the retry). -/
theorem session_loop_interrupted_wait {σ : Type} (os : OS σ) (echo : Bool) (client_fd : Int)
    (fuel : Nat) (s : σ) (pre post : List Event) (args : SelectArgs) (res : SelectResult)
    (htrace : (session_loop os echo client_fd fuel s).trace =
      pre ++ Event.select args res :: post)
    (hret : res.ret < 0) (herrno : res.errno = EINTR) :
    (post = [] ∧ (session_loop os echo client_fd fuel s).result = none) ∨
      ∃ res2 post2, post = Event.select args res2 :: post2 :=
  each_iff.1 (sessionRun_retried (session_loop_run os echo client_fd fuel s)) pre _ post
    htrace args res rfl hret herrno

/-- C7 at a run in which the readiness wait and then the writability wait of
the first transfer are each interrupted once; the instance is the second. -/
theorem session_loop_interrupted_wait_witness :
    (([Event.select (writable_args 5) ⟨1, 0, [], [5]⟩, Event.write 5 1 1 [2] ⟨1, 0⟩,
        Event.select (readable_args 5) ⟨-1, 9, [], []⟩, Event.perror "select"] :
          List Event) = [] ∧
      (session_loop (os_script [ReadResult.data [1, 2]] [⟨1, 0⟩, ⟨1, 0⟩]
        [⟨-1, 4, [], []⟩, ⟨1, 0, [0], []⟩, ⟨-1, 4, [], []⟩, ⟨1, 0, [], [5]⟩])
        false 5 8 (0, 0, 0)).result = none) ∨
      ∃ res2 post2,
        ([Event.select (writable_args 5) ⟨1, 0, [], [5]⟩, Event.write 5 1 1 [2] ⟨1, 0⟩,
          Event.select (readable_args 5) ⟨-1, 9, [], []⟩, Event.perror "select"] :
            List Event) = Event.select (writable_args 5) res2 :: post2 :=
  session_loop_interrupted_wait
    (os_script [ReadResult.data [1, 2]] [⟨1, 0⟩, ⟨1, 0⟩]
      [⟨-1, 4, [], []⟩, ⟨1, 0, [0], []⟩, ⟨-1, 4, [], []⟩, ⟨1, 0, [], [5]⟩])
    false 5 8 (0, 0, 0)
    [Event.select (readable_args 5) ⟨-1, 4, [], []⟩,
      Event.select (readable_args 5) ⟨1, 0, [0], []⟩,
      Event.read 0 4096 (ReadResult.data [1, 2]), Event.write 5 0 2 [1, 2] ⟨1, 0⟩]
    [Event.select (writable_args 5) ⟨1, 0, [], [5]⟩, Event.write 5 1 1 [2] ⟨1, 0⟩,
      Event.select (readable_args 5) ⟨-1, 9, [], []⟩, Event.perror "select"]
    (writable_args 5) ⟨-1, 4, [], []⟩ (by decide) (by decide) (by decide)

/-! ## Events that end a transfer, and the exit code -/

theorem exit_code_writable (c out_fd : Int) (res : SelectResult) :
    exit_code c (Event.select (writable_args out_fd) res) = 0 := by
  simp [exit_code, writable_args, readable_args]

theorem waitRun_stops {out_fd : Int} {t : List Event} {r : Option WaitExit}
    (h : WaitRun out_fd t r) : Each (StopsTransfer WaitExit.failed r) t := by
  induction h with
  | fuel => trivial
  | eintr res t r _ he _ ih => exact ⟨fun hs => absurd he hs.2, ih⟩
  | fail res _ _ =>
    exact ⟨fun _ => ⟨fun c => exit_code_writable c _ _, rfl, rfl⟩, fun hs => hs.elim, trivial⟩
  | ready res hret _ => exact ⟨fun hs => absurd hs.1 hret, trivial⟩
  | again res t r hret _ _ ih => exact ⟨fun hs => absurd hs.1 hret, ih⟩

theorem maybeWait_stops {out_fd : Int} {rem nb : Int} {t : List Event}
    {r : Option WaitExit} (h : MaybeWait out_fd rem nb t r) :
    Each (StopsTransfer WaitExit.failed r) t := by
  rcases h with ⟨_, h⟩ | ⟨_, rfl, _⟩
  · exact waitRun_stops h
  · trivial

/-- A run that did not return `v` contains no stopping event, so the property
carries over to any continuation. -/
theorem each_stops_append {α β : Type} {v : α} {r : Option α} {w : β} {r2 : Option β}
    {t k : List Event} (h : Each (StopsTransfer v r) t) (hr : r ≠ some v) :
    Each (fun e post => StopsTransfer w r2 e (post ++ k)) t :=
  each_mono (fun _ _ hq hs => absurd (hq hs).2.2 hr) h

theorem each_stops_last {α β : Type} {v : α} {r : Option α} {w : β}
    {t : List Event} (h : Each (StopsTransfer v r) t) :
    Each (StopsTransfer w (some w)) t :=
  each_mono (fun _ _ hq hs => ⟨(hq hs).1, (hq hs).2.1, rfl⟩) h

theorem each_stops_none {α β : Type} {v : α} {w : β}
    {t : List Event} (h : Each (StopsTransfer v none) t) :
    Each (StopsTransfer w none) t :=
  each_mono (fun _ _ hq hs => by cases (hq hs).2.2) h

theorem loopRun_stops {out_fd : Int} {buf : List Byte} {off rem : Int} {t : List Event}
    {r : Option Int} (h : LoopRun out_fd buf off rem t r) :
    Each (StopsTransfer (-1 : Int) r) t := by
  induction h with
  | done => trivial
  | fuel => trivial
  | fatal off rem res _ _ => exact ⟨fun _ => ⟨fun _ => rfl, rfl, rfl⟩, trivial⟩
  | stuck off rem res nb wt _ hn hw =>
    refine ⟨fun hs => ?_, each_stops_none (maybeWait_stops hw)⟩
    rw [write_nbytes_eq_none.2 hs] at hn; cases hn
  | wfail off rem res nb wt _ hn hw =>
    refine ⟨fun hs => ?_, each_stops_last (maybeWait_stops hw)⟩
    rw [write_nbytes_eq_none.2 hs] at hn; cases hn
  | next off rem res nb wt k r _ hn hw _ ih =>
    refine ⟨fun hs => ?_, each_append.2
      ⟨each_stops_append (maybeWait_stops hw) (by simp), ih⟩⟩
    rw [write_nbytes_eq_none.2 hs] at hn; cases hn

theorem transferRun_stops {in_fd out_fd : Int} {t : List Event} {r : Option Int}
    (h : TransferRun in_fd out_fd t r) : Each (StopsTransfer (-1 : Int) r) t := by
  cases h with
  | closed res _ => exact ⟨fun _ => ⟨fun _ => rfl, rfl, rfl⟩, trivial⟩
  | chunk res k r hret hl => exact ⟨fun hs => absurd hs hret, loopRun_stops hl⟩

theorem maybeTransfer_stops {ready : Prop} {in_fd out_fd : Int} {t : List Event}
    {r : Option Int} (h : MaybeTransfer ready in_fd out_fd t r) :
    Each (StopsTransfer (-1 : Int) r) t := by
  rcases h with ⟨_, h⟩ | ⟨_, rfl, _⟩
  · exact transferRun_stops h
  · trivial

theorem stopsSession_of_transfer {client_fd : Int} {r : Option Int} {t : List Event}
    (h : Each (StopsTransfer (-1 : Int) r) t) :
    Each (StopsSession client_fd (some 0)) t :=
  each_mono (fun _ _ hq hs => ⟨(hq hs).2.1, by rw [(hq hs).1 client_fd]⟩) h

theorem stopsSession_append {client_fd : Int} {r r2 : Option Int} {t k : List Event}
    (h : Each (StopsTransfer (-1 : Int) r) t) (hr : r ≠ some (-1)) :
    Each (fun e post => StopsSession client_fd r2 e (post ++ k)) t :=
  each_mono (fun _ _ hq hs => absurd (hq hs).2.2 hr) h

theorem stopsSession_none {client_fd : Int} {t : List Event}
    (h : Each (StopsTransfer (-1 : Int) none) t) :
    Each (StopsSession client_fd none) t :=
  each_mono (fun _ _ hq hs => by cases (hq hs).2.2) h

theorem sessionRun_stops {echo : Bool} {client_fd : Int} {t : List Event} {r : Option Int}
    (h : SessionRun echo client_fd t r) : Each (StopsSession client_fd r) t := by
  have hne : ∀ v : Int, ¬ v < 0 → some v ≠ some (-1 : Int) := by
    intro v hv h
    cases h
    exact hv (by decide)
  induction h with
  | fuel => trivial
  | eintr res k r _ he _ ih => exact ⟨fun hs => absurd he hs.2, ih⟩
  | fail res _ _ =>
    exact ⟨fun _ => ⟨rfl, by simp [exit_code]⟩, fun hs => hs.elim, trivial⟩
  | stuck1 res t1 hret h1 =>
    exact ⟨fun hs => absurd hs.1 hret, stopsSession_none (maybeTransfer_stops h1)⟩
  | end1 res t1 v1 hret h1 _ =>
    exact ⟨fun hs => absurd hs.1 hret, stopsSession_of_transfer (maybeTransfer_stops h1)⟩
  | stuck2 res t1 v1 t2 hret h1 hv1 h2 =>
    exact ⟨fun hs => absurd hs.1 hret, each_append.2
      ⟨stopsSession_append (maybeTransfer_stops h1) (hne v1 hv1),
        stopsSession_none (maybeTransfer_stops h2)⟩⟩
  | end2 res t1 v1 t2 v2 hret h1 hv1 h2 _ =>
    exact ⟨fun hs => absurd hs.1 hret, each_append.2
      ⟨stopsSession_append (maybeTransfer_stops h1) (hne v1 hv1),
        stopsSession_of_transfer (maybeTransfer_stops h2)⟩⟩
  | next res t1 v1 t2 v2 k r hret h1 hv1 h2 hv2 _ ih =>
    exact ⟨fun hs => absurd hs.1 hret, each_append.2
      ⟨stopsSession_append (maybeTransfer_stops h1) (hne v1 hv1), each_append.2
        ⟨stopsSession_append (maybeTransfer_stops h2) (hne v2 hv2), ih⟩⟩⟩

/-! ## C4: end of stream ends the session with exit code 0 -/

/-- C4: in every run of the session loop, a `read` that returns 0 — each read
is the one that opens a transfer, from standard input or from the connection —
is the last event of the run: the transfer makes no write and no wait, the
other route is not served, and the loop has returned exit code 0. -/
theorem session_loop_end_of_stream {σ : Type} (os : OS σ) (echo : Bool) (client_fd : Int)
    (fuel : Nat) (s : σ) (pre post : List Event) (fd : Int) (cnt : Nat) (res : ReadResult)
    (htrace : (session_loop os echo client_fd fuel s).trace =
      pre ++ Event.read fd cnt res :: post)
    (hret : res.ret = 0) :
    post = [] ∧ (session_loop os echo client_fd fuel s).result = some 0 :=
  each_iff.1 (sessionRun_stops (session_loop_run os echo client_fd fuel s)) pre _ post htrace
    (le_of_eq hret)

/-- C4 at a run in which both descriptors are readable and standard input is at
end of stream: the connection, although ready, is not read. -/
theorem session_loop_end_of_stream_witness :
    ([] : List Event) = [] ∧
      (session_loop (os_script [ReadResult.data []] [] [⟨2, 0, [0, 5], []⟩])
        true 5 4 (0, 0, 0)).result = some 0 :=
  session_loop_end_of_stream (os_script [ReadResult.data []] [] [⟨2, 0, [0, 5], []⟩])
    true 5 4 (0, 0, 0) [Event.select (readable_args 5) ⟨2, 0, [0, 5], []⟩] [] 0 4096
    (ReadResult.data []) (by decide) (by decide)

/-! ## C3: the exit code after an I/O error -/

/-- C3 as the code has it: in every run of the session loop, an event that
stops it — a read returning zero or a negative count, a write returning zero or
a negative value with `errno` other than `EAGAIN`, a `select` failing with
`errno` other than `EINTR` — is followed by nothing but the `perror("select")`
of a failed `select`, and the loop has returned: exit code 1 when the event is
the readiness wait of line 169, exit code 0 when it belongs to a transfer. -/
theorem session_loop_exit_code {σ : Type} (os : OS σ) (echo : Bool) (client_fd : Int)
    (fuel : Nat) (s : σ) (pre post : List Event) (e : Event)
    (htrace : (session_loop os echo client_fd fuel s).trace = pre ++ e :: post)
    (hstop : stops e) :
    ((∃ res, e = Event.select (readable_args client_fd) res) ∧
        post = [Event.perror "select"] ∧
        (session_loop os echo client_fd fuel s).result = some 1) ∨
    ((∀ res, e ≠ Event.select (readable_args client_fd) res) ∧
        (post = [] ∨ post = [Event.perror "select"]) ∧
        (session_loop os echo client_fd fuel s).result = some 0) := by
  have h := each_iff.1 (sessionRun_stops (session_loop_run os echo client_fd fuel s))
    pre e post htrace hstop
  rcases e with ⟨fd, cnt, res⟩ | ⟨fd, off, cnt, bytes, res⟩ | ⟨args, res⟩ | msg
  · exact Or.inr ⟨(fun _ he => by cases he), Or.inl h.1, h.2⟩
  · exact Or.inr ⟨(fun _ he => by cases he), Or.inl h.1, h.2⟩
  · by_cases ha : args = readable_args client_fd
    · subst ha
      refine Or.inl ⟨⟨res, rfl⟩, h.1, ?_⟩
      rw [h.2]; simp [exit_code]
    · refine Or.inr ⟨fun res2 he => ?_, Or.inr h.1, ?_⟩
      · cases he; exact ha rfl
      · rw [h.2]; simp [exit_code, ha]
  · exact hstop.elim

/-- C3 at a run whose readiness wait fails with `EBADF`: the exit code is 1. -/
theorem session_loop_exit_code_witness :
    ((∃ res, Event.select (readable_args 5) ⟨-1, 9, [], []⟩ =
          Event.select (readable_args 5) res) ∧
        [Event.perror "select"] = [Event.perror "select"] ∧
        (session_loop (os_script [] [] [⟨-1, 9, [], []⟩]) false 5 4 (0, 0, 0)).result
          = some 1) ∨
    ((∀ res, Event.select (readable_args 5) ⟨-1, 9, [], []⟩ ≠
          Event.select (readable_args 5) res) ∧
        ([Event.perror "select"] = [] ∨ [Event.perror "select"] = [Event.perror "select"]) ∧
        (session_loop (os_script [] [] [⟨-1, 9, [], []⟩]) false 5 4 (0, 0, 0)).result
          = some 0) :=
  session_loop_exit_code (os_script [] [] [⟨-1, 9, [], []⟩]) false 5 4 (0, 0, 0) []
    [Event.perror "select"] (Event.select (readable_args 5) ⟨-1, 9, [], []⟩)
    (by decide) ⟨by decide, by decide⟩

/-- C3 as stated fails: a read that returns `-1` (`EIO`), a write that returns
`-1` (`EIO`) and a writability wait that fails with `EBADF` each end the session
loop with exit code 0. -/
theorem session_loop_exit_code_counterexample :
    ((session_loop (os_script [ReadResult.fail 5] [] [⟨1, 0, [0], []⟩])
          false 5 4 (0, 0, 0)).trace =
        [Event.select (readable_args 5) ⟨1, 0, [0], []⟩,
          Event.read 0 4096 (ReadResult.fail 5)] ∧
      (ReadResult.fail 5).ret = -1 ∧
      (session_loop (os_script [ReadResult.fail 5] [] [⟨1, 0, [0], []⟩])
          false 5 4 (0, 0, 0)).result = some 0) ∧
    ((session_loop (os_script [ReadResult.data [7, 8]] [⟨-1, 5⟩] [⟨1, 0, [5], []⟩])
          false 5 4 (0, 0, 0)).trace =
        [Event.select (readable_args 5) ⟨1, 0, [5], []⟩,
          Event.read 5 4096 (ReadResult.data [7, 8]),
          Event.write 1 0 2 [7, 8] ⟨-1, 5⟩] ∧
      (session_loop (os_script [ReadResult.data [7, 8]] [⟨-1, 5⟩] [⟨1, 0, [5], []⟩])
          false 5 4 (0, 0, 0)).result = some 0) ∧
    ((session_loop (os_script [ReadResult.data [7, 8]] [⟨1, 0⟩]
          [⟨1, 0, [5], []⟩, ⟨-1, 9, [], []⟩]) false 5 4 (0, 0, 0)).trace =
        [Event.select (readable_args 5) ⟨1, 0, [5], []⟩,
          Event.read 5 4096 (ReadResult.data [7, 8]),
          Event.write 1 0 2 [7, 8] ⟨1, 0⟩,
          Event.select (writable_args 1) ⟨-1, 9, [], []⟩, Event.perror "select"] ∧
      (session_loop (os_script [ReadResult.data [7, 8]] [⟨1, 0⟩]
          [⟨1, 0, [5], []⟩, ⟨-1, 9, [], []⟩]) false 5 4 (0, 0, 0)).result = some 0) := by
  decide

/-! ## C5: the two routes -/

theorem routed_append {G : Int → Int → Prop} {a b : List Event}
    {cur : Option (Int × ReadResult)} :
    Routed G cur (a ++ b) ↔ Routed G cur a ∧ Routed G (current_read cur a) b := by
  induction a generalizing cur with
  | nil => simp [Routed, current_read]
  | cons x a ih =>
    rw [List.cons_append]
    cases x <;> simp only [Routed, current_read, ih, and_assoc]

theorem routed_split {G : Int → Int → Prop} {t : List Event}
    {cur : Option (Int × ReadResult)} (h : Routed G cur t) (pre post : List Event)
    (fd off cnt : Int) (bytes : List Byte) (res : WriteResult)
    (ht : t = pre ++ Event.write fd off cnt bytes res :: post) :
    ∃ src rres, current_read cur pre = some (src, rres) ∧ G src fd ∧
      bytes = slice rres.bytes off cnt := by
  subst ht
  have h2 := (routed_append.1 h).2
  exact h2.1

theorem routed_of_quiet {G : Int → Int → Prop} {t : List Event}
    (cur : Option (Int × ReadResult))
    (h : ∀ e ∈ t, (∃ a res, e = Event.select a res) ∨ ∃ m, e = Event.perror m) :
    Routed G cur t ∧ current_read cur t = cur := by
  induction t with
  | nil => exact ⟨trivial, rfl⟩
  | cons x t ih =>
    have ht := ih (fun e he => h e (List.mem_cons_of_mem _ he))
    rcases h x (by simp) with ⟨a, res, rfl⟩ | ⟨m, rfl⟩
    · exact ht
    · exact ht

theorem maybeWait_quiet {out_fd : Int} {rem nb : Int} {t : List Event} {r : Option WaitExit}
    (h : MaybeWait out_fd rem nb t r) :
    ∀ e ∈ t, (∃ a res, e = Event.select a res) ∨ ∃ m, e = Event.perror m := by
  intro e he
  rcases maybeWait_events h e he with ⟨res, rfl⟩ | rfl
  · exact Or.inl ⟨_, _, rfl⟩
  · exact Or.inr ⟨_, rfl⟩

theorem loopRun_routed {G : Int → Int → Prop} {out_fd : Int} {buf : List Byte}
    {off rem : Int} {t : List Event} {r : Option Int} (h : LoopRun out_fd buf off rem t r)
    (src : Int) (rres : ReadResult) (hbuf : rres.bytes = buf) (hG : G src out_fd) :
    Routed G (some (src, rres)) t := by
  have hw : ∀ (o c : Int) (res : WriteResult),
      ∃ src2 rres2, some (src, rres) = some (src2, rres2) ∧ G src2 out_fd ∧
        slice buf o c = slice rres2.bytes o c := by
    intro o c res
    exact ⟨src, rres, rfl, hG, by rw [hbuf]⟩
  induction h with
  | done => trivial
  | fuel => trivial
  | fatal off rem res _ _ => exact ⟨hw _ _ res, trivial⟩
  | stuck off rem res nb wt _ _ hwt =>
    exact ⟨hw _ _ res, (routed_of_quiet _ (maybeWait_quiet hwt)).1⟩
  | wfail off rem res nb wt _ _ hwt =>
    exact ⟨hw _ _ res, (routed_of_quiet _ (maybeWait_quiet hwt)).1⟩
  | next off rem res nb wt k r _ _ hwt _ ih =>
    refine ⟨hw _ _ res, routed_append.2 ⟨(routed_of_quiet _ (maybeWait_quiet hwt)).1, ?_⟩⟩
    rw [(routed_of_quiet (G := G) _ (maybeWait_quiet hwt)).2]
    exact ih

theorem maybeTransfer_routed {G : Int → Int → Prop} {ready : Prop} {in_fd out_fd : Int}
    {t : List Event} {r : Option Int} (h : MaybeTransfer ready in_fd out_fd t r)
    (hG : G in_fd out_fd) (cur : Option (Int × ReadResult)) : Routed G cur t := by
  rcases h with ⟨_, h⟩ | ⟨_, rfl, _⟩
  · cases h with
    | closed res _ => trivial
    | chunk res k r _ hl => exact loopRun_routed hl in_fd res rfl hG
  · trivial

theorem sessionRun_routed {echo : Bool} {client_fd : Int} {t : List Event} {r : Option Int}
    (h : SessionRun echo client_fd t r) :
    ∀ cur, Routed (route echo client_fd) cur t := by
  have g1 : route echo client_fd STDIN_FILENO client_fd := Or.inl ⟨rfl, rfl⟩
  have g2 : route echo client_fd client_fd (client_dest echo client_fd) := Or.inr ⟨rfl, rfl⟩
  induction h with
  | fuel => intro cur; trivial
  | eintr res k r _ _ _ ih => intro cur; exact ih cur
  | fail res _ _ => intro cur; trivial
  | stuck1 res t1 _ h1 => intro cur; exact maybeTransfer_routed h1 g1 cur
  | end1 res t1 v1 _ h1 _ => intro cur; exact maybeTransfer_routed h1 g1 cur
  | stuck2 res t1 v1 t2 _ h1 _ h2 =>
    intro cur
    exact routed_append.2 ⟨maybeTransfer_routed h1 g1 cur, maybeTransfer_routed h2 g2 _⟩
  | end2 res t1 v1 t2 v2 _ h1 _ h2 _ =>
    intro cur
    exact routed_append.2 ⟨maybeTransfer_routed h1 g1 cur, maybeTransfer_routed h2 g2 _⟩
  | next res t1 v1 t2 v2 k r _ h1 _ h2 _ _ ih =>
    intro cur
    exact routed_append.2 ⟨maybeTransfer_routed h1 g1 cur,
      routed_append.2 ⟨maybeTransfer_routed h2 g2 _, ih _⟩⟩

/-- C5: in every run of the session loop, every write offers bytes of the most
recent read, taken unchanged from the offset the write is at, and that read and
the write are the two ends of one of the two routes: standard input to the
connection, or the connection to itself (`echo`) or to standard output (no
`echo`).  When the connection's descriptor is not 0, a write of bytes read from
standard input goes to the connection, and a write of bytes read from the
connection goes to the connection with `echo` set and to standard output
otherwise; when it is not 1 either, bytes read from the connection are never
written to standard output with `echo` set, and never to the connection
without it. -/
theorem session_loop_routes {σ : Type} (os : OS σ) (echo : Bool) (client_fd : Int)
    (fuel : Nat) (s : σ) (pre post : List Event) (fd off cnt : Int) (bytes : List Byte)
    (res : WriteResult)
    (htrace : (session_loop os echo client_fd fuel s).trace =
      pre ++ Event.write fd off cnt bytes res :: post) :
    ∃ src rres, current_read none pre = some (src, rres) ∧
      bytes = (rres.bytes.drop off.toNat).take cnt.toNat ∧
      ((src = STDIN_FILENO ∧ fd = client_fd) ∨
        (src = client_fd ∧ fd = if echo then client_fd else STDOUT_FILENO)) ∧
      (client_fd ≠ STDIN_FILENO →
        (src = STDIN_FILENO → fd = client_fd) ∧
        (src = client_fd → fd = if echo then client_fd else STDOUT_FILENO)) ∧
      (client_fd ≠ STDIN_FILENO → client_fd ≠ STDOUT_FILENO →
        (src = client_fd → echo = true → fd ≠ STDOUT_FILENO) ∧
        (src = client_fd → echo = false → fd ≠ client_fd)) := by
  obtain ⟨src, rres, hcur, hroute, hbytes⟩ :=
    routed_split (sessionRun_routed (session_loop_run os echo client_fd fuel s) none)
      pre post fd off cnt bytes res htrace
  refine ⟨src, rres, hcur, hbytes, hroute, fun hstdin => ⟨?_, ?_⟩,
    fun hstdin hstdout => ⟨?_, ?_⟩⟩
  · intro hs
    rcases hroute with ⟨_, h⟩ | ⟨h, _⟩
    · exact h
    · exact absurd (h.symm.trans hs) hstdin
  · intro hs
    rcases hroute with ⟨h, _⟩ | ⟨_, h⟩
    · exact absurd (hs.symm.trans h) hstdin
    · exact h
  · intro hs he
    rcases hroute with ⟨h, _⟩ | ⟨_, h⟩
    · exact absurd (hs.symm.trans h) hstdin
    · rw [h, if_pos he]; exact hstdout
  · intro hs he
    rcases hroute with ⟨h, _⟩ | ⟨_, h⟩
    · exact absurd (hs.symm.trans h) hstdin
    · rw [h, he]; exact fun h2 => hstdout h2.symm

/-- C5 at the scenario of the specification, echo disabled: "PING" arrives on
standard input and is written to the connection (descriptor 5), then "PONG"
arrives from the connection; the instance is the write of "PONG". -/
theorem session_loop_routes_witness :
    ∃ src rres, current_read none
        [Event.select (readable_args 5) ⟨1, 0, [0], []⟩,
          Event.read 0 4096 (ReadResult.data [80, 73, 78, 71]),
          Event.write 5 0 4 [80, 73, 78, 71] ⟨4, 0⟩,
          Event.select (readable_args 5) ⟨1, 0, [5], []⟩,
          Event.read 5 4096 (ReadResult.data [80, 79, 78, 71])] = some (src, rres) ∧
      [80, 79, 78, 71] = (rres.bytes.drop (0 : Int).toNat).take (4 : Int).toNat ∧
      ((src = STDIN_FILENO ∧ (1 : Int) = 5) ∨
        (src = 5 ∧ (1 : Int) = if false = true then 5 else STDOUT_FILENO)) ∧
      ((5 : Int) ≠ STDIN_FILENO →
        (src = STDIN_FILENO → (1 : Int) = 5) ∧
        (src = 5 → (1 : Int) = if false = true then 5 else STDOUT_FILENO)) ∧
      ((5 : Int) ≠ STDIN_FILENO → (5 : Int) ≠ STDOUT_FILENO →
        (src = 5 → false = true → (1 : Int) ≠ STDOUT_FILENO) ∧
        (src = 5 → false = false → (1 : Int) ≠ 5)) :=
  session_loop_routes
    (os_script [ReadResult.data [80, 73, 78, 71], ReadResult.data [80, 79, 78, 71]]
      [⟨4, 0⟩, ⟨4, 0⟩] [⟨1, 0, [0], []⟩, ⟨1, 0, [5], []⟩])
    false 5 8 (0, 0, 0)
    [Event.select (readable_args 5) ⟨1, 0, [0], []⟩,
      Event.read 0 4096 (ReadResult.data [80, 73, 78, 71]),
      Event.write 5 0 4 [80, 73, 78, 71] ⟨4, 0⟩,
      Event.select (readable_args 5) ⟨1, 0, [5], []⟩,
      Event.read 5 4096 (ReadResult.data [80, 79, 78, 71])]
    [Event.select (readable_args 5) ⟨-1, 9, [], []⟩, Event.perror "select"]
    1 0 4 [80, 79, 78, 71] ⟨4, 0⟩ (by decide)

/-! ## C1: the bytes accepted by the destination -/

theorem accepted_append (a b : List Event) : accepted (a ++ b) = accepted a ++ accepted b := by
  induction a with
  | nil => rfl
  | cons x a ih => rw [List.cons_append]; simp only [accepted, ih, List.append_assoc]

theorem accepted_maybeWait {out_fd : Int} {rem nb : Int} {t : List Event}
    {r : Option WaitExit} (h : MaybeWait out_fd rem nb t r) : accepted t = [] := by
  have hq := maybeWait_events h
  clear h
  induction t with
  | nil => rfl
  | cons x t ih =>
    have ht := ih (fun e he => hq e (List.mem_cons_of_mem _ he))
    rcases hq x (by simp) with ⟨res, rfl⟩ | rfl <;> simpa [accepted, accepted_bytes] using ht

theorem write_nbytes_eq_some {res : WriteResult} {nb : Int} (h : write_nbytes res = some nb) :
    (res.ret < 0 ∧ res.errno = EAGAIN ∧ nb = 0) ∨ (0 < res.ret ∧ nb = res.ret) := by
  unfold write_nbytes at h
  split_ifs at h with h1 h2
  · cases h; exact Or.inl ⟨h1.1, h1.2, rfl⟩
  · cases h; exact Or.inr ⟨by omega, rfl⟩

theorem loopRun_accepted {out_fd : Int} {buf : List Byte} {off rem : Int} {t : List Event}
    {r : Option Int} (h : LoopRun out_fd buf off rem t r) (hoff : 0 ≤ off)
    (hsum : off + rem = buf.length) (hw : ∀ e ∈ t, within_request e) (hr : r = some 0) :
    accepted t = buf.drop off.toNat := by
  induction h with
  | done off rem hrem =>
    rw [List.drop_eq_nil_of_le (by omega)]
    rfl
  | fuel => cases hr
  | fatal => cases hr
  | stuck => cases hr
  | wfail => cases hr
  | next off rem res nb wt k r hrem hn hwt _ ih =>
    have hev : 0 < res.ret → res.ret ≤ rem := hw _ (List.mem_cons_self _ _)
    have hk : ∀ e ∈ k, within_request e := fun e he =>
      hw e (List.mem_cons_of_mem _ (List.mem_append_right _ he))
    simp only [accepted, accepted_append, accepted_maybeWait hwt, List.nil_append,
      accepted_bytes, slice]
    rcases write_nbytes_eq_some hn with ⟨hneg, _, rfl⟩ | ⟨hpos, rfl⟩
    · rw [ih (by omega) (by omega) hk hr]
      have h0 : res.ret.toNat = 0 := by omega
      simp [h0]
    · have hev2 := hev hpos
      rw [ih (by omega) (by omega) hk hr, List.take_take]
      have h1 : min res.ret.toNat rem.toNat = res.ret.toNat := by omega
      have h2 : (off + res.ret).toNat = off.toNat + res.ret.toNat := by omega
      rw [h1, h2, ← List.drop_drop, List.take_append_drop]

theorem transfer_data_data {σ : Type} (os : OS σ) (fuel : Nat) (s : σ) (in_fd out_fd : Int)
    (chunk : List Byte) (hread : (os.read s in_fd BUF_SIZE).1 = ReadResult.data chunk) :
    transfer_data os fuel s in_fd out_fd =
      if (chunk.length : Int) ≤ 0 then
        ⟨[Event.read in_fd BUF_SIZE (ReadResult.data chunk)], (os.read s in_fd BUF_SIZE).2,
          some (-1)⟩
      else
        ⟨Event.read in_fd BUF_SIZE (ReadResult.data chunk) ::
            (write_loop os out_fd chunk fuel (os.read s in_fd BUF_SIZE).2 0 chunk.length).trace,
          (write_loop os out_fd chunk fuel (os.read s in_fd BUF_SIZE).2 0 chunk.length).state,
          (write_loop os out_fd chunk fuel (os.read s in_fd BUF_SIZE).2 0
            chunk.length).result⟩ := by
  unfold transfer_data
  simp only [hread, ReadResult.ret, ReadResult.bytes]

/-- C1: for every chunk of at most 4096 bytes delivered by the read of
`transfer_data`, and every behaviour of the destination in which no write
returns more than the count it was asked for, a run that returns 0 has handed
the destination, in call order, byte ranges whose concatenation is exactly the
chunk. -/
theorem transfer_data_accepted {σ : Type} (os : OS σ) (fuel : Nat) (s : σ)
    (in_fd out_fd : Int) (chunk : List Byte)
    (hread : (os.read s in_fd BUF_SIZE).1 = ReadResult.data chunk)
    (_hlen : chunk.length ≤ BUF_SIZE)
    (hwrites : ∀ fd off cnt bytes res,
      Event.write fd off cnt bytes res ∈ (transfer_data os fuel s in_fd out_fd).trace →
      0 < res.ret → res.ret ≤ cnt)
    (hok : (transfer_data os fuel s in_fd out_fd).result = some 0) :
    accepted (transfer_data os fuel s in_fd out_fd).trace = chunk := by
  rw [transfer_data_data os fuel s in_fd out_fd chunk hread] at hwrites hok ⊢
  split_ifs at hwrites hok ⊢ with h0
  · cases hok
  · have hrun := write_loop_run os out_fd chunk fuel (os.read s in_fd BUF_SIZE).2 0
      chunk.length
    have hacc := loopRun_accepted hrun (le_refl 0) (by omega) (fun e he => by
      rcases e with _ | ⟨fd, off, cnt, bytes, res⟩ | _ | _
      · trivial
      · exact hwrites fd off cnt bytes res (List.mem_cons_of_mem _ he)
      · trivial
      · trivial) hok
    simp only [accepted, accepted_bytes, List.nil_append, hacc]
    simp

/-- C1 at a run that delivers a five-byte chunk in writes of 2, 2 and 1 bytes. -/
theorem transfer_data_accepted_witness :
    accepted (transfer_data (os_short [10, 20, 30, 40, 50] 2) 8 0 0 5).trace =
      [10, 20, 30, 40, 50] :=
  transfer_data_accepted (os_short [10, 20, 30, 40, 50] 2) 8 0 0 5 [10, 20, 30, 40, 50]
    rfl (by decide)
    (by
      intro fd off cnt bytes res hmem hpos
      have ht : (transfer_data (os_short [10, 20, 30, 40, 50] 2) 8 0 0 5).trace =
          [Event.read 0 4096 (ReadResult.data [10, 20, 30, 40, 50]),
            Event.write 5 0 5 [10, 20, 30, 40, 50] ⟨2, 0⟩,
            Event.select (writable_args 5) ⟨1, 0, [], [5]⟩,
            Event.write 5 2 3 [30, 40, 50] ⟨2, 0⟩,
            Event.select (writable_args 5) ⟨1, 0, [], [5]⟩,
            Event.write 5 4 1 [50] ⟨1, 0⟩] := by decide
      rw [ht] at hmem
      simp only [List.mem_cons, List.mem_singleton, List.not_mem_nil, or_false,
        reduceCtorEq, false_or, Event.write.injEq] at hmem
      rcases hmem with ⟨_, _, rfl, _, rfl⟩ | ⟨_, _, rfl, _, rfl⟩ | ⟨_, _, rfl, _, rfl⟩ <;>
        decide)
    (by decide)

/-! ## C10: the loop invariant of `transfer_data` -/

theorem guarded_split {ok Q : Event → Prop} {t : List Event} (h : Guarded ok Q t)
    (pre post : List Event) (e : Event) (ht : t = pre ++ e :: post)
    (hpre : ∀ x ∈ pre, ok x) : Q e := by
  subst ht
  induction pre with
  | nil => exact h.1
  | cons x pre ih =>
    exact ih (fun y hy => hpre y (List.mem_cons_of_mem _ hy))
      (h.2 (hpre x (List.mem_cons_self _ _)))

theorem guarded_append {ok Q : Event → Prop} {a b : List Event} (ha : Guarded ok Q a)
    (hb : Guarded ok Q b) : Guarded ok Q (a ++ b) := by
  induction a with
  | nil => exact hb
  | cons x a ih => exact ⟨ha.1, fun hx => ih (ha.2 hx)⟩

theorem guarded_of_forall {ok Q : Event → Prop} {t : List Event} (h : ∀ e ∈ t, Q e) :
    Guarded ok Q t := by
  induction t with
  | nil => trivial
  | cons x t ih =>
    exact ⟨h x (List.mem_cons_self _ _), fun _ => ih (fun e he => h e (List.mem_cons_of_mem _ he))⟩

theorem inBuffer_head {out_fd : Int} {buf : List Byte} {off rem : Int} (res : WriteResult)
    (hoff : 0 ≤ off) (hrem : rem > 0) (hsum : off + rem = buf.length) :
    InBuffer out_fd buf (Event.write out_fd off rem (slice buf off rem) res) := by
  intro fd o c b res2 he
  cases he
  refine ⟨rfl, hoff, hrem, hsum, rfl, fun hle nb hn => ?_⟩
  rcases write_nbytes_eq_some hn with ⟨_, _, rfl⟩ | ⟨_, rfl⟩ <;> omega

theorem inBuffer_maybeWait {out_fd : Int} {buf : List Byte} {rem nb : Int}
    {t : List Event} {r : Option WaitExit} (h : MaybeWait out_fd rem nb t r) :
    ∀ e ∈ t, InBuffer out_fd buf e := by
  intro e he fd o c b res hw
  rcases maybeWait_events h e he with ⟨sres, rfl⟩ | rfl <;> cases hw

theorem loopRun_inBuffer {out_fd : Int} {buf : List Byte} {off rem : Int} {t : List Event}
    {r : Option Int} (h : LoopRun out_fd buf off rem t r) (hoff : 0 ≤ off)
    (hsum : off + rem = buf.length) :
    Guarded within_request (InBuffer out_fd buf) t := by
  induction h with
  | done => trivial
  | fuel => trivial
  | fatal off rem res hrem _ => exact ⟨inBuffer_head res hoff hrem hsum, fun _ => trivial⟩
  | stuck off rem res nb wt hrem _ hw =>
    exact ⟨inBuffer_head res hoff hrem hsum, fun _ => guarded_of_forall (inBuffer_maybeWait hw)⟩
  | wfail off rem res nb wt hrem _ hw =>
    exact ⟨inBuffer_head res hoff hrem hsum, fun _ => guarded_of_forall (inBuffer_maybeWait hw)⟩
  | next off rem res nb wt k r hrem hn hw _ ih =>
    refine ⟨inBuffer_head res hoff hrem hsum, fun hok =>
      guarded_append (guarded_of_forall (inBuffer_maybeWait hw)) (ih ?_ ?_)⟩
    · rcases write_nbytes_eq_some hn with ⟨_, _, rfl⟩ | ⟨_, rfl⟩ <;> omega
    · omega

/-- C10: for a chunk of at most 4096 bytes delivered by the read, every write
of a run of `transfer_data` that is preceded only by writes returning no more
than they were asked for is made with `send_ptr` at offset `off ≥ 0` and
`remaining = cnt` where `off + cnt` is the number of bytes read and
`0 < cnt ≤ 4096`; the bytes offered are the `cnt` bytes of the chunk from `off`
on, all inside the filled part of the buffer; and when this write too returns
no more than `cnt`, the updated `remaining` is not negative and the invariant
holds again. -/
theorem transfer_data_loop_invariant {σ : Type} (os : OS σ) (fuel : Nat) (s : σ)
    (in_fd out_fd : Int) (chunk : List Byte) (pre post : List Event) (fd off cnt : Int)
    (bytes : List Byte) (res : WriteResult)
    (hread : (os.read s in_fd BUF_SIZE).1 = ReadResult.data chunk)
    (hlen : chunk.length ≤ BUF_SIZE)
    (htrace : (transfer_data os fuel s in_fd out_fd).trace =
      pre ++ Event.write fd off cnt bytes res :: post)
    (hpre : ∀ fd2 off2 cnt2 bytes2 res2,
      Event.write fd2 off2 cnt2 bytes2 res2 ∈ pre → res2.ret ≤ cnt2) :
    fd = out_fd ∧ off + cnt = chunk.length ∧ 0 ≤ off ∧ 0 < cnt ∧ cnt ≤ 4096 ∧
    off + cnt ≤ 4096 ∧
    bytes = (chunk.drop off.toNat).take cnt.toNat ∧ (bytes.length : Int) = cnt ∧
    (res.ret ≤ cnt → ∀ nb, write_nbytes res = some nb →
      0 ≤ off + nb ∧ 0 ≤ cnt - nb ∧ (off + nb) + (cnt - nb) = chunk.length) := by
  have hg : Guarded within_request (InBuffer out_fd chunk)
      (transfer_data os fuel s in_fd out_fd).trace := by
    rw [transfer_data_data os fuel s in_fd out_fd chunk hread]
    split_ifs with h0
    · exact ⟨(fun _ _ _ _ _ he => by cases he), fun _ => trivial⟩
    · exact ⟨(fun _ _ _ _ _ he => by cases he), fun _ =>
        loopRun_inBuffer (write_loop_run os out_fd chunk fuel _ 0 chunk.length) (le_refl 0)
          (by omega)⟩
  have hq := guarded_split hg pre post _ htrace (fun x hx => by
    rcases x with _ | ⟨fd2, off2, cnt2, bytes2, res2⟩ | _ | _
    · trivial
    · exact fun _ => hpre fd2 off2 cnt2 bytes2 res2 hx
    · trivial
    · trivial) fd off cnt bytes res rfl
  obtain ⟨h1, h2, h3, h4, h5, h6⟩ := hq
  have hB : (BUF_SIZE : Int) = 4096 := rfl
  refine ⟨h1, h4, h2, h3, by omega, by omega, h5, ?_, h6⟩
  rw [h5]
  simp only [slice, List.length_take, List.length_drop]
  omega

/-- C10 at the second write of a run that delivers five bytes two at a time. -/
theorem transfer_data_loop_invariant_witness :
    (5 : Int) = 5 ∧ (2 : Int) + 3 = ([10, 20, 30, 40, 50] : List Byte).length ∧
    (0 : Int) ≤ 2 ∧ (0 : Int) < 3 ∧ (3 : Int) ≤ 4096 ∧ (2 : Int) + 3 ≤ 4096 ∧
    ([30, 40, 50] : List Byte) =
      (([10, 20, 30, 40, 50] : List Byte).drop (2 : Int).toNat).take (3 : Int).toNat ∧
    ((([30, 40, 50] : List Byte).length : Nat) : Int) = 3 ∧
    ((⟨2, 0⟩ : WriteResult).ret ≤ 3 → ∀ nb, write_nbytes ⟨2, 0⟩ = some nb →
      0 ≤ 2 + nb ∧ 0 ≤ 3 - nb ∧
        (2 + nb) + (3 - nb) = (([10, 20, 30, 40, 50] : List Byte).length : Int)) :=
  transfer_data_loop_invariant (os_short [10, 20, 30, 40, 50] 2) 8 0 0 5
    [10, 20, 30, 40, 50]
    [Event.read 0 4096 (ReadResult.data [10, 20, 30, 40, 50]),
      Event.write 5 0 5 [10, 20, 30, 40, 50] ⟨2, 0⟩,
      Event.select (writable_args 5) ⟨1, 0, [], [5]⟩]
    [Event.select (writable_args 5) ⟨1, 0, [], [5]⟩, Event.write 5 4 1 [50] ⟨1, 0⟩]
    5 2 3 [30, 40, 50] ⟨2, 0⟩ rfl (by decide) (by decide)
    (by
      intro fd2 off2 cnt2 bytes2 res2 hmem
      simp only [List.mem_cons, List.mem_singleton, List.not_mem_nil, or_false,
        reduceCtorEq, false_or, Event.write.injEq] at hmem
      obtain ⟨_, _, rfl, _, rfl⟩ := hmem
      decide)

/-! ## C2: a destination that takes `N` bytes at a time -/

theorem ceil_div_zero (N : Nat) (hN : 1 ≤ N) : (0 + N - 1) / N = 0 :=
  Nat.div_eq_of_lt (by omega)

theorem ceil_div_le (r N : Nat) (hr : 0 < r) (hle : r ≤ N) : (r + N - 1) / N = 1 :=
  Nat.div_eq_of_lt_le (by omega) (by omega)

theorem ceil_div_gt (r N : Nat) (hN : 1 ≤ N) (hgt : N < r) :
    (r + N - 1) / N = (r - N + N - 1) / N + 1 := by
  have h : r + N - 1 = (r - N + N - 1) + N := by omega
  rw [h, Nat.add_div_right _ (by omega)]

theorem write_loop_zero_remaining {σ : Type} (os : OS σ) (out_fd : Int) (buf : List Byte)
    (fuel : Nat) (s : σ) (off rem : Int) (hrem : ¬ rem > 0) :
    write_loop os out_fd buf fuel s off rem = ⟨[], s, some 0⟩ := by
  cases fuel <;> simp only [write_loop, hrem, if_false]

theorem write_loop_next {σ : Type} (os : OS σ) (out_fd : Int) (buf : List Byte)
    (fuel : Nat) (s : σ) (off rem nb : Int) (wt : Run σ WaitExit) (hrem : rem > 0)
    (hnb : write_nbytes (os.write s out_fd (slice buf off rem) rem).1 = some nb)
    (hwt : (if rem > nb then wait_writable os out_fd fuel
        (os.write s out_fd (slice buf off rem) rem).2
      else ⟨[], (os.write s out_fd (slice buf off rem) rem).2, some WaitExit.writable⟩) = wt)
    (hres : wt.result = some WaitExit.writable) :
    write_loop os out_fd buf (fuel + 1) s off rem =
      ⟨Event.write out_fd off rem (slice buf off rem)
          (os.write s out_fd (slice buf off rem) rem).1 ::
          (wt.trace ++ (write_loop os out_fd buf fuel wt.state (off + nb) (rem - nb)).trace),
        (write_loop os out_fd buf fuel wt.state (off + nb) (rem - nb)).state,
        (write_loop os out_fd buf fuel wt.state (off + nb) (rem - nb)).result⟩ := by
  simp only [write_loop, hrem, if_true, hnb, hwt, hres]

theorem write_nbytes_pos (res : WriteResult) (h : 0 < res.ret) :
    write_nbytes res = some res.ret := by
  unfold write_nbytes
  rw [if_neg (fun h2 => by omega), if_neg (by omega)]

theorem wait_writable_mono {σ : Type} (os : OS σ) (out_fd : Int) (k : Nat) (s : σ)
    (x : WaitExit) (h : (wait_writable os out_fd k s).result = some x) (k2 : Nat)
    (hk : k ≤ k2) : wait_writable os out_fd k2 s = wait_writable os out_fd k s := by
  induction k generalizing s k2 with
  | zero => simp [wait_writable] at h
  | succ k ih =>
    obtain ⟨j, rfl⟩ : ∃ j, k2 = j + 1 := ⟨k2 - 1, by omega⟩
    simp only [wait_writable] at h ⊢
    split_ifs at h ⊢ with h1 h2 h3
    · rw [ih _ h j (by omega)]
    · rfl
    · rfl
    · rw [ih _ h j (by omega)]

theorem countP_write_wait {σ : Type} (os : OS σ) (out_fd : Int) (k : Nat) (s : σ) :
    (wait_writable os out_fd k s).trace.countP Event.isWrite = 0 := by
  rw [List.countP_eq_zero]
  intro e he
  rcases waitRun_events (wait_writable_run os out_fd k s) e he with ⟨res, rfl⟩ | rfl <;>
    simp [Event.isWrite]

theorem within_request_wait {σ : Type} (os : OS σ) (out_fd : Int) (k : Nat) (s : σ) :
    ∀ e ∈ (wait_writable os out_fd k s).trace, within_request e := by
  intro e he
  rcases waitRun_events (wait_writable_run os out_fd k s) e he with ⟨res, rfl⟩ | rfl <;>
    trivial

theorem write_loop_short {σ : Type} (os : OS σ) (out_fd : Int) (buf : List Byte) (N : Nat)
    (hN : 1 ≤ N)
    (hwrite : ∀ s bytes cnt, (os.write s out_fd bytes cnt).1.ret = min (N : Int) cnt)
    (hwait : ∀ s, ∃ k, (wait_writable os out_fd k s).result = some WaitExit.writable)
    (rem : Nat) :
    ∀ (s : σ) (off : Int), ∃ fuel0, ∀ fuel, fuel0 ≤ fuel →
      (write_loop os out_fd buf fuel s off rem).result = some 0 ∧
      (write_loop os out_fd buf fuel s off rem).trace.countP Event.isWrite =
        (rem + N - 1) / N ∧
      ∀ e ∈ (write_loop os out_fd buf fuel s off rem).trace, within_request e := by
  induction rem using Nat.strong_induction_on with
  | _ rem ih =>
    intro s off
    by_cases hrem : rem = 0
    · subst hrem
      refine ⟨0, fun fuel _ => ?_⟩
      rw [write_loop_zero_remaining os out_fd buf fuel s off _ (by simp)]
      exact ⟨rfl, by rw [ceil_div_zero N hN]; rfl, by simp⟩
    · have hpos : (rem : Int) > 0 := by omega
      have hret := hwrite s (slice buf off rem) rem
      have hnb := write_nbytes_pos (os.write s out_fd (slice buf off rem) rem).1
        (by omega)
      have hreq : within_request (Event.write out_fd off rem (slice buf off rem)
          (os.write s out_fd (slice buf off rem) rem).1) := fun _ => by omega
      by_cases hgt : N < rem
      · have hc := ceil_div_gt rem N hN hgt
        have hmin : (os.write s out_fd (slice buf off rem) rem).1.ret = (N : Int) := by omega
        rw [hmin] at hnb
        obtain ⟨k, hk⟩ := hwait (os.write s out_fd (slice buf off rem) rem).2
        obtain ⟨f0, hf0⟩ := ih (rem - N) (by omega)
          (wait_writable os out_fd k (os.write s out_fd (slice buf off rem) rem).2).state
          (off + N)
        refine ⟨max k f0 + 1, fun fuel hfuel => ?_⟩
        obtain ⟨f, rfl⟩ : ∃ f, fuel = f + 1 := ⟨fuel - 1, by omega⟩
        rw [write_loop_next os out_fd buf f s off rem N _ hpos hnb
          (by rw [if_pos (by omega), wait_writable_mono os out_fd k _ _ hk f (by omega)]) hk]
        have hcast : (rem : Int) - (N : Int) = ((rem - N : Nat) : Int) := by omega
        rw [hcast]
        obtain ⟨h1, h2, h3⟩ := hf0 f (by omega)
        refine ⟨h1, ?_, ?_⟩
        · simp only [List.countP_cons, List.countP_append, Event.isWrite, h2,
            countP_write_wait]
          simp only [if_true]
          omega
        · intro e he
          simp only [List.mem_cons, List.mem_append] at he
          rcases he with rfl | he | he
          · exact hreq
          · exact within_request_wait os out_fd k _ e he
          · exact h3 e he
      · have hmin : (os.write s out_fd (slice buf off rem) rem).1.ret = (rem : Int) := by omega
        rw [hmin] at hnb
        refine ⟨1, fun fuel hfuel => ?_⟩
        obtain ⟨f, rfl⟩ : ∃ f, fuel = f + 1 := ⟨fuel - 1, by omega⟩
        rw [write_loop_next os out_fd buf f s off rem rem _ hpos hnb
          (by rw [if_neg (by omega)]) rfl]
        rw [write_loop_zero_remaining os out_fd buf f _ _ _ (by omega)]
        refine ⟨rfl, ?_, ?_⟩
        · rw [ceil_div_le rem N (by omega) (by omega)]
          simp [Event.isWrite]
        · intro e he
          simp only [List.append_nil, List.mem_singleton] at he
          rw [he]
          exact hreq

/-- C2 with the wait made explicit: for a chunk of `M` bytes (`1 ≤ M ≤ 4096`)
and `1 ≤ N < 4096`, when every write to the destination returns
`min N requested` and every wait for the destination's writability, from any
state, ends after finitely many `select` calls with the destination reported
writable, `transfer_data` returns 0 (for every large enough budget), its trace
holds exactly `⌈M / N⌉` write attempts, and the bytes accepted, in call order,
are the chunk. -/
theorem transfer_data_short_writes {σ : Type} (os : OS σ) (s : σ)
    (in_fd out_fd : Int) (chunk : List Byte) (N : Nat)
    (hread : (os.read s in_fd BUF_SIZE).1 = ReadResult.data chunk)
    (hM : 1 ≤ chunk.length ∧ chunk.length ≤ BUF_SIZE)
    (_hN : N < 4096) (hN : 1 ≤ N)
    (hwrite : ∀ s2 bytes cnt, (os.write s2 out_fd bytes cnt).1.ret = min (N : Int) cnt)
    (hwait : ∀ s2, ∃ k, (wait_writable os out_fd k s2).result = some WaitExit.writable) :
    ∃ fuel0, ∀ fuel, fuel0 ≤ fuel →
      (transfer_data os fuel s in_fd out_fd).result = some 0 ∧
      (transfer_data os fuel s in_fd out_fd).trace.countP Event.isWrite =
        (chunk.length + N - 1) / N ∧
      accepted (transfer_data os fuel s in_fd out_fd).trace = chunk := by
  obtain ⟨fuel0, h⟩ := write_loop_short os out_fd chunk N hN hwrite hwait chunk.length
    (os.read s in_fd BUF_SIZE).2 0
  refine ⟨fuel0, fun fuel hfuel => ?_⟩
  obtain ⟨h1, h2, h3⟩ := h fuel hfuel
  have hacc := loopRun_accepted (write_loop_run os out_fd chunk fuel
    (os.read s in_fd BUF_SIZE).2 0 chunk.length) (le_refl 0) (by omega) h3 h1
  rw [transfer_data_data os fuel s in_fd out_fd chunk hread, if_neg (by omega)]
  refine ⟨h1, ?_, ?_⟩
  · simp only [List.countP_cons, Event.isWrite, h2]
    simp
  · simp only [accepted, accepted_bytes, List.nil_append, hacc]
    simp

/-- C2 (amended) at a five-byte chunk and a destination taking two bytes at a time. -/
theorem transfer_data_short_writes_witness :
    ∃ fuel0, ∀ fuel, fuel0 ≤ fuel →
      (transfer_data (os_short [10, 20, 30, 40, 50] 2) fuel 0 0 5).result = some 0 ∧
      (transfer_data (os_short [10, 20, 30, 40, 50] 2) fuel 0 0 5).trace.countP
        Event.isWrite = (([10, 20, 30, 40, 50] : List Byte).length + 2 - 1) / 2 ∧
      accepted (transfer_data (os_short [10, 20, 30, 40, 50] 2) fuel 0 0 5).trace =
        [10, 20, 30, 40, 50] :=
  transfer_data_short_writes (os_short [10, 20, 30, 40, 50] 2) 0 0 5 [10, 20, 30, 40, 50] 2
    rfl (by decide) (by decide) (by decide) (fun _ _ _ => rfl) (fun _ => ⟨1, rfl⟩)

theorem wait_writable_interrupted {σ : Type} (os : OS σ) (out_fd : Int)
    (h : ∀ s, (os.select s (writable_args out_fd)).1.ret < 0 ∧
      (os.select s (writable_args out_fd)).1.errno = EINTR) (fuel : Nat) (s : σ) :
    (wait_writable os out_fd fuel s).result = none := by
  induction fuel generalizing s with
  | zero => rfl
  | succ fuel ih =>
    simp only [wait_writable, (h s).1, (h s).2, if_true]
    exact ih _

theorem transfer_data_interrupted (fuel : Nat) :
    (transfer_data (os_no_wait [10, 20] 1 ⟨-1, 4, [], []⟩) fuel 0 0 5).result = none := by
  have hw := wait_writable_interrupted (os_no_wait [10, 20] 1 ⟨-1, 4, [], []⟩) 5
    (fun _ => ⟨show (-1 : Int) < 0 by decide, rfl⟩)
  cases fuel with
  | zero => rfl
  | succ fuel =>
    simp only [transfer_data, write_loop]
    rw [if_neg (by decide), if_pos (by decide)]
    have hnb : write_nbytes ((os_no_wait [10, 20] 1 ⟨-1, 4, [], []⟩).write
        ((os_no_wait [10, 20] 1 ⟨-1, 4, [], []⟩).read 0 0 BUF_SIZE).2 5
        (slice ((os_no_wait [10, 20] 1 ⟨-1, 4, [], []⟩).read 0 0 BUF_SIZE).1.bytes 0
          ((os_no_wait [10, 20] 1 ⟨-1, 4, [], []⟩).read 0 0 BUF_SIZE).1.ret)
        ((os_no_wait [10, 20] 1 ⟨-1, 4, [], []⟩).read 0 0 BUF_SIZE).1.ret).1 = some 1 := by
      decide
    simp only [hnb]
    rw [if_pos (by decide)]
    have h2 : (wait_writable (os_no_wait [10, 20] 1 ⟨-1, 4, [], []⟩) 5 fuel
        ((os_no_wait [10, 20] 1 ⟨-1, 4, [], []⟩).write
          ((os_no_wait [10, 20] 1 ⟨-1, 4, [], []⟩).read 0 0 BUF_SIZE).2 5
          (slice ((os_no_wait [10, 20] 1 ⟨-1, 4, [], []⟩).read 0 0 BUF_SIZE).1.bytes 0
            ((os_no_wait [10, 20] 1 ⟨-1, 4, [], []⟩).read 0 0 BUF_SIZE).1.ret)
          ((os_no_wait [10, 20] 1 ⟨-1, 4, [], []⟩).read 0 0 BUF_SIZE).1.ret).2).result
        = none := hw fuel _
    simp only [h2]

/-- C2 as stated fails: the destination of `os_no_wait` accepts exactly
`min 1 requested` bytes on every write and never reports would-block or an
error on a write.  When the `select` that follows the short write fails with
`ENOMEM`, `transfer_data` returns `-1` for a two-byte chunk after one write
attempt; when every `select` is interrupted (`EINTR`), it never returns 0. -/
theorem transfer_data_short_writes_counterexample :
    (∀ (sel : SelectResult) (s : Nat) (fd : Int) (bytes : List Byte) (cnt : Int),
      ((os_no_wait [10, 20] 1 sel).write s fd bytes cnt).1 = ⟨min 1 cnt, 0⟩) ∧
    (transfer_data (os_no_wait [10, 20] 1 ⟨-1, 12, [], []⟩) 8 0 0 5).trace =
      [Event.read 0 4096 (ReadResult.data [10, 20]), Event.write 5 0 2 [10, 20] ⟨1, 0⟩,
        Event.select (writable_args 5) ⟨-1, 12, [], []⟩, Event.perror "select"] ∧
    (transfer_data (os_no_wait [10, 20] 1 ⟨-1, 12, [], []⟩) 8 0 0 5).result = some (-1) ∧
    (([10, 20] : List Byte).length + 1 - 1) / 1 = 2 ∧
    ¬ ∃ fuel, (transfer_data (os_no_wait [10, 20] 1 ⟨-1, 4, [], []⟩) fuel 0 0 5).result
      = some 0 :=
  ⟨fun _ _ _ _ _ => rfl, by decide, by decide, by decide,
    fun ⟨fuel, h⟩ => by rw [transfer_data_interrupted fuel] at h; cases h⟩

/-! ## C9: `set_non_blocking` -/

theorem testBit_not_o_nonblock (k : Nat) :
    NOT_O_NONBLOCK.testBit k = (decide (k < 32) && !decide (11 = k)) := by
  have h : NOT_O_NONBLOCK = 2 ^ 32 - (2 ^ 11 + 1) := by decide
  rw [h, Nat.testBit_two_pow_sub_succ (by norm_num), Nat.testBit_two_pow]

theorem testBit_o_nonblock (k : Nat) : O_NONBLOCK.testBit k = decide (11 = k) := by
  have h : O_NONBLOCK = 2 ^ 11 := by decide
  rw [h, Nat.testBit_two_pow]

/-- The flag word computed by lines 38–41 from the word `f`. -/
theorem set_non_blocking_valid (f : Nat) (enable : Bool) :
    set_non_blocking (Descriptor.valid f) enable =
      (Descriptor.valid (if enable then (f &&& NOT_O_NONBLOCK) ||| O_NONBLOCK
        else f &&& NOT_O_NONBLOCK), []) := by
  simp only [set_non_blocking, fcntl_getfl, fcntl_setfl]
  rw [if_neg (by omega)]
  simp

theorem testBit_new_flags (f : Nat) (enable : Bool) (k : Nat) :
    (if enable then (f &&& NOT_O_NONBLOCK) ||| O_NONBLOCK
      else f &&& NOT_O_NONBLOCK).testBit k =
      ((f.testBit k && (decide (k < 32) && !decide (11 = k))) ||
        (enable && decide (11 = k))) := by
  cases enable
  · simp only [Bool.false_eq_true, if_false, Nat.testBit_land, testBit_not_o_nonblock,
      Bool.false_and, Bool.or_false]
  · simp only [if_true, Nat.testBit_lor, Nat.testBit_land, testBit_not_o_nonblock,
      testBit_o_nonblock, Bool.true_and]

/-- C9: for every flag word `f` that `F_GETFL` can return (a non-negative
`int`) and every `enable`, `set_non_blocking` leaves a flag word whose
`O_NONBLOCK` bit (bit 11) is `enable` and whose other bits are those of `f`;
applying it a second time changes nothing; and on a descriptor whose flags
cannot be read it returns after `perror("fcntl")` with the descriptor
untouched. -/
theorem set_non_blocking_spec (f : Nat) (enable : Bool) (hf : f < 2 ^ 31) :
    O_NONBLOCK = 2 ^ 11 ∧
    (∃ g, (set_non_blocking (Descriptor.valid f) enable).1 = Descriptor.valid g ∧
      g.testBit 11 = enable ∧ ∀ k, k ≠ 11 → g.testBit k = f.testBit k) ∧
    (set_non_blocking (set_non_blocking (Descriptor.valid f) enable).1 enable).1 =
      (set_non_blocking (Descriptor.valid f) enable).1 ∧
    set_non_blocking Descriptor.invalid enable =
      (Descriptor.invalid, [Event.perror "fcntl"]) := by
  refine ⟨by decide, ⟨_, by rw [set_non_blocking_valid], ?_, ?_⟩, ?_, rfl⟩
  · rw [testBit_new_flags]
    simp
  · intro k hk
    rw [testBit_new_flags]
    have hk2 : ¬ (11 = k) := fun h => hk h.symm
    by_cases h32 : k < 32
    · simp [hk2, h32]
    · have hfk : f.testBit k = false :=
        Nat.testBit_lt_two_pow (lt_of_lt_of_le hf (Nat.pow_le_pow_right (by norm_num) (by omega)))
      simp [hk2, h32, hfk]
  · rw [set_non_blocking_valid, set_non_blocking_valid]
    show Descriptor.valid _ = Descriptor.valid _
    congr 1
    apply Nat.eq_of_testBit_eq
    intro k
    rw [testBit_new_flags, testBit_new_flags]
    cases f.testBit k <;> cases enable <;> cases decide (k < 32) <;> cases decide (11 = k) <;> rfl

/-- C9 at the flag word `O_RDWR | O_APPEND` (02002), enabling. -/
theorem set_non_blocking_spec_witness :
    O_NONBLOCK = 2 ^ 11 ∧
    (∃ g, (set_non_blocking (Descriptor.valid 1026) true).1 = Descriptor.valid g ∧
      g.testBit 11 = true ∧ ∀ k, k ≠ 11 → g.testBit k = (1026 : Nat).testBit k) ∧
    (set_non_blocking (set_non_blocking (Descriptor.valid 1026) true).1 true).1 =
      (set_non_blocking (Descriptor.valid 1026) true).1 ∧
    set_non_blocking Descriptor.invalid true =
      (Descriptor.invalid, [Event.perror "fcntl"]) :=
  set_non_blocking_spec 1026 true (by norm_num)

end VsockServer
